import Mathlib

/-!
# Expense tracker: record model, storage and manager

A shallow embedding of `Code.cpp` (struct `Expense`, classes `ExpenseStorage`
and `ExpenseManager`) together with the properties its specification states.

Modelling conventions.

* `std::string` is `List Char` (`Str`).
* `int` is an `Int` kept in the 32-bit range; the one arithmetic operation of
  the program on ids, the increment of the counter, wraps (`wrapInt`).
* `double` is an exact rational (`ℚ`).  Rounding to the nearest double,
  non-finite values, the sign of a zero and range errors of `stod` are
  outside this model.
* The library routines the program calls (`operator<<` on `int` and `double`,
  `std::stoi`, `std::stod`, `std::getline`) are not part of the repository;
  they are written out here after the C++ standard.
* The backing file is a value: its content when it can be read, and whether
  it can be opened for writing.
-/

namespace ExpenseTracker

/-- The type of `std::string` values. -/
abbrev Str := List Char

/-- Struct `Expense` with the default member initialisers of the source. -/
structure Expense where
  id : Int := 0
  date : Str := []
  category : Str := []
  amount : ℚ := 0
  note : Str := []
deriving DecidableEq

/-- Smallest `int`. -/
def INT_MIN : Int := -2147483648

/-- Largest `int`. -/
def INT_MAX : Int := 2147483647

/-- Reduction of an integer to the 32-bit two's-complement range. -/
def wrapInt (x : Int) : Int := (x + 2147483648) % 4294967296 - 2147483648

/-! ## Text of numbers (`operator<<`) -/

/-- The character of a decimal digit `d < 10`. -/
def digitChar (d : Nat) : Char := Char.ofNat (48 + d)

/-- Decimal digits of `n`, most significant first, pushed in front of `acc`;
`fuel` bounds the number of digits. -/
def natTextAux : Nat → Nat → Str → Str
  | 0, _, acc => acc
  | fuel + 1, n, acc =>
    if n < 10 then digitChar n :: acc
    else natTextAux fuel (n / 10) (digitChar (n % 10) :: acc)

/-- Decimal text of a natural number (no sign, no leading zeros; `0` is "0"). -/
def natText (n : Nat) : Str := natTextAux (n + 1) n []

/-- Text that `oss << id` writes for an `int`. -/
def intText (i : Int) : Str :=
  if i < 0 then '-' :: natText i.natAbs else natText i.natAbs

/-- Hundredths of `|q|`, rounded to nearest with ties to even, as `printf`
does for the `%.2f` conversion. -/
def roundCents (q : ℚ) : Nat :=
  let n := q.num.natAbs * 100
  let d := q.den
  let f := n / d
  let r := n % d
  if 2 * r < d then f
  else if d < 2 * r then f + 1
  else if f % 2 = 0 then f else f + 1

/-- Text that `oss << fixed << setprecision(2) << amount` writes. -/
def fixed2 (q : ℚ) : Str :=
  let cents := roundCents q
  (if q < 0 then ['-'] else []) ++ natText (cents / 100) ++
    ['.', digitChar (cents % 100 / 10), digitChar (cents % 10)]

/-! ## Numbers from text (`std::stoi`, `std::stod`) -/

/-- Predicate `isspace` in the "C" locale. -/
def isSpace (c : Char) : Bool :=
  c = ' ' || c = '\t' || c = '\n' || c = '\x0b' || c = '\x0c' || c = '\r'

/-- Predicate `isdigit`. -/
def isDigit (c : Char) : Bool := 48 ≤ c.toNat && c.toNat ≤ 57

/-- Value of a decimal digit character. -/
def digitVal (c : Char) : Nat := c.toNat - 48

/-- Value of a run of decimal digits. -/
def parseDigits (ds : Str) : Nat := ds.foldl (fun acc c => acc * 10 + digitVal c) 0

/-- An optional leading sign: whether it is `-`, and the rest. -/
def takeSign : Str → Bool × Str
  | '-' :: t => (true, t)
  | '+' :: t => (false, t)
  | s => (false, s)

/-- Function `std::stoi(s)`: leading white space is skipped, then an optional
sign and the longest run of decimal digits are read and what follows is
ignored.  `none` stands for the exception thrown when there is no digit
(`invalid_argument`) or the value is not an `int` (`out_of_range`). -/
def stoi (s : Str) : Option Int :=
  let (neg, s2) := takeSign (s.dropWhile isSpace)
  let ds := s2.takeWhile isDigit
  if ds = [] then none
  else
    let v : Int := if neg then -(parseDigits ds : Int) else (parseDigits ds : Int)
    if INT_MIN ≤ v ∧ v ≤ INT_MAX then some v else none

/-- Predicate `isxdigit`. -/
def isHexDigit (c : Char) : Bool :=
  isDigit c || (97 ≤ c.toNat && c.toNat ≤ 102) || (65 ≤ c.toNat && c.toNat ≤ 70)

/-- Value of a hexadecimal digit character. -/
def hexVal (c : Char) : Nat :=
  if isDigit c then c.toNat - 48
  else if 97 ≤ c.toNat then c.toNat - 87 else c.toNat - 55

/-- Value of a run of hexadecimal digits. -/
def parseHex (ds : Str) : Nat := ds.foldl (fun acc c => acc * 16 + hexVal c) 0

/-- The digits after a radix point, when there is one. -/
def takeFraction (digit : Char → Bool) : Str → Str × Str
  | '.' :: t => (t.takeWhile digit, t.dropWhile digit)
  | s => ([], s)

/-- An optional exponent introduced by one of the two `marks`: a sign and at
least one decimal digit must follow for it to count. -/
def takeExponent (marks : Char × Char) : Str → Int
  | c :: t =>
    if c = marks.1 ∨ c = marks.2 then
      let (neg, t2) := takeSign t
      let ds := t2.takeWhile isDigit
      if ds = [] then 0
      else if neg then -(parseDigits ds : Int) else (parseDigits ds : Int)
    else 0
  | [] => 0

/-- Hexadecimal form read by `strtod`: after `0x`, hexadecimal digits with an
optional radix point and an optional binary exponent. -/
def stodHex : Str → Option ℚ
  | '0' :: x :: t =>
    if x = 'x' ∨ x = 'X' then
      let ip := t.takeWhile isHexDigit
      let (fp, rest) := takeFraction isHexDigit (t.dropWhile isHexDigit)
      if ip = [] ∧ fp = [] then none
      else some ((parseHex (ip ++ fp) : ℚ) / (16 : ℚ) ^ fp.length *
        (2 : ℚ) ^ takeExponent ('p', 'P') rest)
    else none
  | _ => none

/-- Decimal form read by `strtod`: decimal digits with an optional radix
point and an optional decimal exponent. -/
def stodDec (s : Str) : Option ℚ :=
  let ip := s.takeWhile isDigit
  let (fp, rest) := takeFraction isDigit (s.dropWhile isDigit)
  if ip = [] ∧ fp = [] then none
  else some ((parseDigits (ip ++ fp) : ℚ) / (10 : ℚ) ^ fp.length *
    (10 : ℚ) ^ takeExponent ('e', 'E') rest)

/-- Magnitude read by `strtod` from text without sign.  `none` when no digit
can be read (this includes the spellings of infinity and NaN, which have no
exact value). -/
def stodMagnitude (s : Str) : Option ℚ :=
  match stodHex s with
  | some v => some v
  | none => stodDec s

/-- Function `std::stod(s)` on exact amounts: leading white space is skipped,
then an optional sign and the longest numeric prefix are read and what follows
is ignored.  `none` stands for the exception thrown when nothing can be read.
Three behaviours of the library on `double` have no counterpart here: a
numeral too large or too small for a `double` makes `std::stod` throw
`out_of_range`, where this function returns the exact value; the spellings of
infinity and NaN make it return a non-finite value, where this function
returns `none`; and `-0` is read as the negative zero, where this function
returns the only zero there is.  On the text that `serialize` writes for an
amount that is a whole number of hundredths the two agree.  Statements about
what `deserialize` does when the library throws are made on
`Expense.deserializeWith`, which takes the library as a parameter. -/
def stod (s : Str) : Option ℚ :=
  let (neg, s2) := takeSign (s.dropWhile isSpace)
  match stodMagnitude s2 with
  | some v => some (if neg then -v else v)
  | none => none

/-! ## Record serialization -/

/-- Lambda `clean` of `Expense::serialize`. -/
def clean (s : Str) : Str :=
  s.map (fun c => if c = '|' ∨ c = '\n' ∨ c = '\r' then ' ' else c)

/-- Method `Expense::serialize`. -/
def Expense.serialize (e : Expense) : Str :=
  intText e.id ++ '|' :: e.date ++ '|' :: e.category ++ '|' :: fixed2 e.amount ++
    '|' :: clean e.note

/-- One turn of the splitting loop of `Expense::deserialize`: the state is
`parts` and `cur`. -/
def splitStep (st : List Str × Str) (c : Char) : List Str × Str :=
  if c = '|' then (st.1 ++ [st.2], []) else (st.1, st.2 ++ [c])

/-- The vector `parts` that `Expense::deserialize` builds from a line. -/
def splitPipe (line : Str) : List Str :=
  let st := line.foldl splitStep ([], [])
  st.1 ++ [st.2]

/-- Method `Expense::deserialize`. -/
def Expense.deserialize (line : Str) : Expense :=
  let parts := splitPipe line
  if 5 ≤ parts.length then
    { id := (stoi (parts.getD 0 [])).getD 0
      date := parts.getD 1 []
      category := parts.getD 2 []
      amount := (stod (parts.getD 3 [])).getD 0
      note := parts.getD 4 [] }
  else {}

/-- Method `Expense::deserialize` with the two library calls as parameters:
`stoiLib` and `stodLib` give what `std::stoi` and `std::stod` return on a
field, and `none` when they throw, whatever the exception
(`invalid_argument` or `out_of_range`); the `catch(...)` of the source does
not tell them apart. -/
def Expense.deserializeWith (stoiLib : Str → Option Int) (stodLib : Str → Option ℚ)
    (line : Str) : Expense :=
  let parts := splitPipe line
  if 5 ≤ parts.length then
    { id := (stoiLib (parts.getD 0 [])).getD 0
      date := parts.getD 1 []
      category := parts.getD 2 []
      amount := (stodLib (parts.getD 3 [])).getD 0
      note := parts.getD 4 [] }
  else {}

/-! ## Storage -/

/-- The backing file of an `ExpenseStorage`: `content` is what reading it
gives (`none` when it does not exist or cannot be opened), `writable` says
whether opening it for writing succeeds. -/
structure Storage where
  content : Option Str
  writable : Bool
deriving DecidableEq

/-- The lines that the successive calls `getline(ifs, line)` deliver; `cur` is
the line being read.  At the end of the file a last line without newline is
delivered when it is not empty. -/
def getlinesAux : Str → Str → List Str
  | [], cur => if cur = [] then [] else [cur]
  | c :: rest, cur =>
    if c = '\n' then cur :: getlinesAux rest [] else getlinesAux rest (cur ++ [c])

/-- All lines of a file content, as the loop of `load` reads them. -/
def getlines (content : Str) : List Str := getlinesAux content []

/-- The loop of `ExpenseStorage::load` over the lines, with the vector `out`. -/
def loadLoop : List Str → List Expense → List Expense
  | [], out => out
  | line :: rest, out =>
    if line = [] then loadLoop rest out
    else
      let e := Expense.deserialize line
      if e.id > 0 then loadLoop rest (out ++ [e]) else loadLoop rest out

/-- The loop of `ExpenseStorage::load` over the lines, with the vector `out`,
for `Expense::deserialize` with the library calls as parameters. -/
def loadLoopWith (stoiLib : Str → Option Int) (stodLib : Str → Option ℚ) :
    List Str → List Expense → List Expense
  | [], out => out
  | line :: rest, out =>
    if line = [] then loadLoopWith stoiLib stodLib rest out
    else
      let e := Expense.deserializeWith stoiLib stodLib line
      if e.id > 0 then loadLoopWith stoiLib stodLib rest (out ++ [e])
      else loadLoopWith stoiLib stodLib rest out

/-- Method `ExpenseStorage::load`. -/
def Storage.load (s : Storage) : List Expense :=
  match s.content with
  | none => []
  | some text => loadLoop (getlines text) []

/-- Method `ExpenseStorage::load` for `Expense::deserialize` with the library
calls as parameters. -/
def Storage.loadWith (stoiLib : Str → Option Int) (stodLib : Str → Option ℚ)
    (s : Storage) : List Expense :=
  match s.content with
  | none => []
  | some text => loadLoopWith stoiLib stodLib (getlines text) []

/-- What the loop of `ExpenseStorage::save` writes to the truncated file. -/
def saveText (expenses : List Expense) : Str :=
  expenses.foldl (fun ofs e => ofs ++ e.serialize ++ ['\n']) []

/-- Method `ExpenseStorage::save`: the result and the file afterwards. -/
def Storage.save (s : Storage) (expenses : List Expense) : Bool × Storage :=
  if s.writable then (true, { s with content := some (saveText expenses) })
  else (false, s)

/-! ## Manager -/

/-- Class `ExpenseManager`. -/
structure ExpenseManager where
  expenses_ : List Expense
  nextId_ : Int
  storage_ : Storage
deriving DecidableEq

/-- The value of `maxId` at the end of the loop of `refreshNextId`. -/
def maxIdOf (expenses : List Expense) : Int :=
  expenses.foldl (fun maxId e => if e.id > maxId then e.id else maxId) 0

/-- Method `ExpenseManager::refreshNextId`. -/
def ExpenseManager.refreshNextId (m : ExpenseManager) : ExpenseManager :=
  { m with nextId_ := wrapInt (maxIdOf m.expenses_ + 1) }

/-- Constructor of `ExpenseManager`. -/
def ExpenseManager.init (storage : Storage) : ExpenseManager :=
  ExpenseManager.refreshNextId { expenses_ := storage.load, nextId_ := 1, storage_ := storage }

/-- Method `ExpenseManager::persist`: the result and the manager (with its
file) afterwards. -/
def ExpenseManager.persist (m : ExpenseManager) : Bool × ExpenseManager :=
  let r := m.storage_.save m.expenses_
  (r.1, { m with storage_ := r.2 })

/-- Method `ExpenseManager::addExpense`. -/
def ExpenseManager.addExpense (m : ExpenseManager) (date category : Str) (amount : ℚ)
    (note : Str) : Expense × ExpenseManager :=
  let e : Expense :=
    { id := m.nextId_, date := date, category := category, amount := amount, note := note }
  let m1 : ExpenseManager :=
    { m with nextId_ := wrapInt (m.nextId_ + 1), expenses_ := m.expenses_ ++ [e] }
  (e, m1.persist.2)

/-- The elements that `erase(remove_if(begin, end, p), end)` keeps. -/
def removeIf (p : Expense → Bool) : List Expense → List Expense
  | [] => []
  | x :: rest => if p x then removeIf p rest else x :: removeIf p rest

/-- Method `ExpenseManager::removeExpense`. -/
def ExpenseManager.removeExpense (m : ExpenseManager) (id : Int) : Bool × ExpenseManager :=
  let before := m.expenses_.length
  let m1 : ExpenseManager := { m with expenses_ := removeIf (fun x => x.id = id) m.expenses_ }
  if m1.expenses_.length < before then (true, m1.persist.2) else (false, m1)

/-- The loop of `ExpenseManager::editExpense`: the vector after the first
record with the given id has been overwritten, `none` when the loop ends
without finding one. -/
def editLoop (id : Int) (date category : Str) (amount : ℚ) (note : Str) :
    List Expense → Option (List Expense)
  | [] => none
  | e :: rest =>
    if e.id = id then
      some ({ e with date := date, category := category, amount := amount, note := note } :: rest)
    else
      match editLoop id date category amount note rest with
      | some rest1 => some (e :: rest1)
      | none => none

/-- Method `ExpenseManager::editExpense`. -/
def ExpenseManager.editExpense (m : ExpenseManager) (id : Int) (date category : Str) (amount : ℚ)
    (note : Str) : Bool × ExpenseManager :=
  match editLoop id date category amount note m.expenses_ with
  | some l => (true, ({ m with expenses_ := l } : ExpenseManager).persist.2)
  | none => (false, m)

/-- Method `ExpenseManager::listAll`. -/
def ExpenseManager.listAll (m : ExpenseManager) : List Expense := m.expenses_

/-- Method `ExpenseManager::findByMonth`. -/
def ExpenseManager.findByMonth (m : ExpenseManager) (yearMonth : Str) : List Expense :=
  m.expenses_.foldl
    (fun out e => if 7 ≤ e.date.length ∧ e.date.take 7 = yearMonth then out ++ [e] else out) []

/-- An `unordered_map<string,double>` as the list of its entries; no key
occurs twice. -/
abbrev SumMap := List (Str × ℚ)

/-- Statement `sums[key] += x`: `operator[]` inserts the value `0.0` for a key
that is not present. -/
def SumMap.addTo : SumMap → Str → ℚ → SumMap
  | [], key, x => [(key, 0 + x)]
  | (k, v) :: rest, key, x =>
    if k = key then (k, v + x) :: rest else (k, v) :: SumMap.addTo rest key x

/-- The value stored under a key, when the key is present. -/
def SumMap.find : SumMap → Str → Option ℚ
  | [], _ => none
  | (k, v) :: rest, key => if k = key then some v else SumMap.find rest key

/-- Method `ExpenseManager::totalPerCategory`. -/
def ExpenseManager.totalPerCategory (m : ExpenseManager) (yearMonth : Str) : SumMap :=
  m.expenses_.foldl
    (fun sums e =>
      if 7 ≤ e.date.length ∧ e.date.take 7 = yearMonth then SumMap.addTo sums e.category e.amount
      else sums) []

/-- Method `ExpenseManager::totalForMonth`. -/
def ExpenseManager.totalForMonth (m : ExpenseManager) (yearMonth : Str) : ℚ :=
  m.expenses_.foldl
    (fun tot e => if 7 ≤ e.date.length ∧ e.date.take 7 = yearMonth then tot + e.amount else tot) 0

/-! ## Sessions -/

/-- A call of one of the three mutating operations. -/
inductive Op where
  | add (date category : Str) (amount : ℚ) (note : Str)
  | remove (id : Int)
  | edit (id : Int) (date category : Str) (amount : ℚ) (note : Str)

/-- The manager after one call. -/
def ExpenseManager.step (m : ExpenseManager) : Op → ExpenseManager
  | Op.add d c a n => (m.addExpense d c a n).2
  | Op.remove i => (m.removeExpense i).2
  | Op.edit i d c a n => (m.editExpense i d c a n).2

/-- The manager after a sequence of calls. -/
def ExpenseManager.run (m : ExpenseManager) (ops : List Op) : ExpenseManager :=
  ops.foldl ExpenseManager.step m

/-- Number of `addExpense` calls in a sequence. -/
def countAdds : List Op → Nat
  | [] => 0
  | Op.add _ _ _ _ :: rest => countAdds rest + 1
  | _ :: rest => countAdds rest

/-- Whether a call reports success: `addExpense` has no failure case, the
other two return a `bool`. -/
def ExpenseManager.succeeds (m : ExpenseManager) : Op → Bool
  | Op.add _ _ _ _ => true
  | Op.remove i => (m.removeExpense i).1
  | Op.edit i d c a n => (m.editExpense i d c a n).1

/-- The ids in memory are positive and below `bound`, and the counter is
`bound` as an `int`: the relation between the list and the counter that the
constructor establishes and that the calls maintain while ids fit in `int`. -/
def ExpenseManager.idsBelow (m : ExpenseManager) (bound : Int) : Prop :=
  (∀ e ∈ m.expenses_, 0 < e.id ∧ e.id < bound) ∧ m.nextId_ = wrapInt bound ∧ 1 ≤ bound

/-! ## Records that the file format keeps as they are -/

/-- A record that one line of the file holds without loss: a positive `int`
id, a date and a category without `|` and newline, a note without `|`,
newline and carriage return, and an amount that is a whole number of
hundredths. -/
def Expense.storable (e : Expense) : Prop :=
  (0 < e.id ∧ e.id ≤ INT_MAX) ∧
  (∀ c ∈ e.date, c ≠ '|' ∧ c ≠ '\n') ∧
  (∀ c ∈ e.category, c ≠ '|' ∧ c ≠ '\n') ∧
  (∀ c ∈ e.note, c ≠ '|' ∧ c ≠ '\n' ∧ c ≠ '\r') ∧
  ∃ k : Int, e.amount = (k : ℚ) / 100

/-! ## Sample data -/

/-- The record `7|2024-03-09|food|-12.34|lunch, late`. -/
def sampleExpense : Expense :=
  { id := 7, date := "2024-03-09".data, category := "food".data,
    amount := ((-1234 : Int) : ℚ) / 100, note := "lunch, late".data }

/-- The manager right after start on a file that does not exist yet and can
be created. -/
def freshManager : ExpenseManager := ExpenseManager.init { content := none, writable := true }

/-- A manager that holds the sample record. -/
def sampleManager : ExpenseManager :=
  { expenses_ := [sampleExpense], nextId_ := 8, storage_ := { content := none, writable := true } }

/-- The record that `sampleAdd` appends to `sampleManager`. -/
def sampleAdded : Expense :=
  { id := 8, date := "2024-03-10".data, category := "fun".data,
    amount := ((500 : Int) : ℚ) / 100, note := "cinema".data }

/-- A call of `addExpense` with well-formed arguments. -/
def sampleAdd : Op := Op.add "2024-03-10".data "fun".data (((500 : Int) : ℚ) / 100) "cinema".data

/-- A file with records of ids 1, 3 and 5, an empty line and a line that is
not a record. -/
def sampleFile : Storage :=
  { content := some
      "1|2024-01-15|food|10.50|a\n\n3|2024-01-31|fun|4.25|b\nbad\n5|2024-02-01|food|1.00|\n".data
    writable := true }

/-- A session: an add, a remove, an edit and another add. -/
def sampleOps : List Op :=
  [sampleAdd, Op.remove 3, Op.edit 1 "2024-01-16".data "food".data 11 "a".data, sampleAdd]

/-- A file in which two records have the id 1. -/
def duplicateIdFile : Storage :=
  { content := some "1|2024-01-15|food|1.00|a\n1|2024-01-16|fun|2.00|b\n".data
    writable := true }

/-- A file whose record has the largest `int` as id. -/
def maxIdFile : Storage :=
  { content := some "2147483647|2024-01-15|food|1.00|a\n".data, writable := true }

/-- A manager with records of ids 1 and 2, the first with a date that holds
a newline followed by the text of another record. -/
def newlineDateManager : ExpenseManager :=
  { expenses_ :=
      [{ id := 1, date := "2024\n7|2024-01-15|food|1.00|a".data, category := "food".data,
         amount := 1, note := "a".data },
       { id := 2, date := "2024-01-16".data, category := "food".data, amount := 2,
         note := "b".data }]
    nextId_ := 3
    storage_ := { content := none, writable := true } }

/-- A record whose note holds the delimiter, a newline and a carriage
return. -/
def delimiterNoteExpense : Expense :=
  { id := 2, date := "2024-03-09".data, category := "food".data, amount := 3,
    note := "a|b\nc\rd".data }

/-- A file whose record has the id 2147483646, so that the counter starts at
the largest `int`. -/
def nearMaxIdFile : Storage :=
  { content := some "2147483646|2024-01-15|food|1.00|a\n".data, writable := true }

/-- A library `stod` that throws on the field `1e999`, which is out of the
range of `double`, and is `stod` on every other field. -/
def stodRangeChecked (s : Str) : Option ℚ :=
  if s = "1e999".data then none else stod s

/-! ## Decimal text and its reading -/

theorem digitVal_digitChar (d : Nat) (h : d < 10) : digitVal (digitChar d) = d := by
  interval_cases d <;> rfl

theorem isDigit_digitChar (d : Nat) (h : d < 10) : isDigit (digitChar d) = true := by
  interval_cases d <;> rfl

theorem isDigit_natTextAux (fuel : Nat) : ∀ (n : Nat) (acc : Str),
    (∀ c ∈ acc, isDigit c = true) → ∀ c ∈ natTextAux fuel n acc, isDigit c = true := by
  induction fuel with
  | zero => intro n acc hacc; simpa [natTextAux] using hacc
  | succ k ih =>
    intro n acc hacc
    unfold natTextAux
    split
    · intro c hc
      rcases List.mem_cons.mp hc with rfl | hc
      · exact isDigit_digitChar n (by assumption)
      · exact hacc c hc
    · apply ih
      intro c hc
      rcases List.mem_cons.mp hc with rfl | hc
      · exact isDigit_digitChar _ (Nat.mod_lt _ (by norm_num))
      · exact hacc c hc

theorem isDigit_natText (n : Nat) : ∀ c ∈ natText n, isDigit c = true :=
  isDigit_natTextAux (n + 1) n [] (by simp)

theorem natTextAux_ne_nil (fuel : Nat) : ∀ (n : Nat) (acc : Str),
    natTextAux (fuel + 1) n acc ≠ [] := by
  induction fuel with
  | zero => intro n acc; unfold natTextAux; split <;> simp [natTextAux]
  | succ k ih =>
    intro n acc
    unfold natTextAux
    split
    · simp
    · exact ih _ _

theorem natText_ne_nil (n : Nat) : natText n ≠ [] := natTextAux_ne_nil n n []

theorem foldl_natTextAux (fuel : Nat) : ∀ (n : Nat) (acc : Str), n < fuel →
    (natTextAux fuel n acc).foldl (fun a c => a * 10 + digitVal c) 0 =
      acc.foldl (fun a c => a * 10 + digitVal c) n := by
  induction fuel with
  | zero => intro n acc h; omega
  | succ k ih =>
    intro n acc h
    unfold natTextAux
    split
    · rename_i hn
      simp [List.foldl_cons, digitVal_digitChar n hn]
    · rename_i hn
      rw [ih (n / 10) _ (by omega)]
      simp only [List.foldl_cons]
      rw [digitVal_digitChar _ (Nat.mod_lt _ (by norm_num)), Nat.div_add_mod']

theorem parseDigits_natText (n : Nat) : parseDigits (natText n) = n := by
  unfold parseDigits natText
  rw [foldl_natTextAux (n + 1) n [] (by omega)]
  rfl

theorem isDigit_not_space {c : Char} (h : isDigit c = true) : isSpace c = false := by
  by_contra hs
  have hs1 : isSpace c = true := by simpa using hs
  simp only [isSpace, Bool.or_eq_true, decide_eq_true_eq] at hs1
  rcases hs1 with ((((rfl | rfl) | rfl) | rfl) | rfl) | rfl <;> exact absurd h (by decide)

theorem takeSign_digit {c : Char} (t : Str) (h : isDigit c = true) :
    takeSign (c :: t) = (false, c :: t) := by
  have h1 : c ≠ '-' := by rintro rfl; exact absurd h (by decide)
  have h2 : c ≠ '+' := by rintro rfl; exact absurd h (by decide)
  unfold takeSign
  split
  · rename_i heq; simp only [List.cons.injEq] at heq; exact absurd heq.1 h1
  · rename_i heq; simp only [List.cons.injEq] at heq; exact absurd heq.1 h2
  · rfl

theorem takeWhile_all {p : Char → Bool} {l : Str} (h : ∀ c ∈ l, p c = true) :
    l.takeWhile p = l := by
  induction l with
  | nil => rfl
  | cons a t ih =>
    rw [List.takeWhile_cons, h a (List.mem_cons_self _ _)]
    simp only [if_true]
    rw [ih (fun c hc => h c (List.mem_cons_of_mem _ hc))]

theorem takeWhile_append_stop {p : Char → Bool} {l : Str} (x : Char) (r : Str)
    (h : ∀ c ∈ l, p c = true) (hx : p x = false) : (l ++ x :: r).takeWhile p = l := by
  induction l with
  | nil => simp [List.takeWhile_cons, hx]
  | cons a t ih =>
    rw [List.cons_append, List.takeWhile_cons, h a (List.mem_cons_self _ _)]
    simp only [if_true]
    rw [ih (fun c hc => h c (List.mem_cons_of_mem _ hc))]

theorem dropWhile_append_stop {p : Char → Bool} {l : Str} (x : Char) (r : Str)
    (h : ∀ c ∈ l, p c = true) (hx : p x = false) : (l ++ x :: r).dropWhile p = x :: r := by
  induction l with
  | nil => simp [List.dropWhile_cons, hx]
  | cons a t ih =>
    rw [List.cons_append, List.dropWhile_cons, h a (List.mem_cons_self _ _)]
    simp only [if_true]
    exact ih (fun c hc => h c (List.mem_cons_of_mem _ hc))

theorem dropWhile_space_digit {c : Char} (t : Str) (h : isDigit c = true) :
    (c :: t).dropWhile isSpace = c :: t := by
  rw [List.dropWhile_cons, isDigit_not_space h]
  simp

/-- Reading back the text of a natural number with `stoi`. -/
theorem stoi_digits (ds : Str) (hne : ds ≠ []) (hd : ∀ c ∈ ds, isDigit c = true)
    (hr : (parseDigits ds : Int) ≤ INT_MAX) : stoi ds = some (parseDigits ds : Int) := by
  obtain ⟨c, t, rfl⟩ := List.exists_cons_of_ne_nil hne
  have hc := hd c (List.mem_cons_self _ _)
  have hmin : INT_MIN ≤ (parseDigits (c :: t) : Int) := by
    have : (0 : Int) ≤ (parseDigits (c :: t) : Int) := Int.natCast_nonneg _
    unfold INT_MIN; omega
  unfold stoi
  rw [dropWhile_space_digit t hc, takeSign_digit t hc]
  simp only [takeWhile_all hd]
  simp [hmin, hr]

theorem stoi_neg_digits (ds : Str) (hne : ds ≠ []) (hd : ∀ c ∈ ds, isDigit c = true)
    (hr : INT_MIN ≤ -(parseDigits ds : Int)) : stoi ('-' :: ds) = some (-(parseDigits ds : Int)) := by
  have hmax : -(parseDigits ds : Int) ≤ INT_MAX := by
    have : (0 : Int) ≤ (parseDigits ds : Int) := Int.natCast_nonneg _
    unfold INT_MAX; omega
  unfold stoi
  have h1 : List.dropWhile isSpace ('-' :: ds) = '-' :: ds := by
    rw [List.dropWhile_cons]; rfl
  rw [h1]
  simp only [takeSign, takeWhile_all hd]
  simp [hne, hmax, hr]

/-- Reading back the text of an `int` with `stoi`. -/
theorem stoi_intText (i : Int) (h1 : INT_MIN ≤ i) (h2 : i ≤ INT_MAX) :
    stoi (intText i) = some i := by
  unfold intText
  split
  · rename_i hneg
    have e : -((parseDigits (natText i.natAbs) : Nat) : Int) = i := by
      rw [parseDigits_natText]; omega
    rw [stoi_neg_digits _ (natText_ne_nil _) (isDigit_natText _) (by rw [e]; exact h1), e]
  · rename_i hpos
    have e : ((parseDigits (natText i.natAbs) : Nat) : Int) = i := by
      rw [parseDigits_natText]; omega
    rw [stoi_digits _ (natText_ne_nil _) (isDigit_natText _) (by rw [e]; exact h2), e]

/-! ## Two-decimal text and its reading -/

theorem stodHex_none (c x : Char) (t : Str) (h1 : x ≠ 'x') (h2 : x ≠ 'X') :
    stodHex (c :: x :: t) = none := by
  unfold stodHex
  split
  · rename_i heq
    simp only [List.cons.injEq] at heq
    obtain ⟨-, rfl, -⟩ := heq
    simp [h1, h2]
  · rfl

theorem stodHex_digits_point (ip : Str) (r : Str) (hne : ip ≠ [])
    (hd : ∀ c ∈ ip, isDigit c = true) : stodHex (ip ++ '.' :: r) = none := by
  obtain ⟨c, t, rfl⟩ := List.exists_cons_of_ne_nil hne
  cases t with
  | nil => exact stodHex_none c '.' r (by decide) (by decide)
  | cons c2 t2 =>
    have hc2 := hd c2 (by simp)
    exact stodHex_none c c2 _ (by rintro rfl; exact absurd hc2 (by decide))
      (by rintro rfl; exact absurd hc2 (by decide))

theorem parseDigits_append_two (ip : Str) (a b : Nat) (ha : a < 10) (hb : b < 10) :
    parseDigits (ip ++ [digitChar a, digitChar b]) = (parseDigits ip * 10 + a) * 10 + b := by
  simp [parseDigits, List.foldl_append, digitVal_digitChar a ha, digitVal_digitChar b hb]

/-- The magnitude that `stod` reads from digits, a point and two digits. -/
theorem stodMagnitude_two_decimals (ip : Str) (a b : Nat) (hne : ip ≠ [])
    (hd : ∀ c ∈ ip, isDigit c = true) (ha : a < 10) (hb : b < 10) :
    stodMagnitude (ip ++ ['.', digitChar a, digitChar b]) =
      some ((((parseDigits ip * 10 + a) * 10 + b : Nat) : ℚ) / 100) := by
  have hfrac : ∀ c ∈ [digitChar a, digitChar b], isDigit c = true := by
    intro c hc
    simp only [List.mem_cons, List.mem_singleton, List.not_mem_nil, or_false] at hc
    rcases hc with rfl | rfl
    · exact isDigit_digitChar a ha
    · exact isDigit_digitChar b hb
  unfold stodMagnitude
  rw [stodHex_digits_point ip _ hne hd]
  simp only
  unfold stodDec
  rw [takeWhile_append_stop '.' _ hd (by decide), dropWhile_append_stop '.' _ hd (by decide)]
  simp only [takeFraction, takeWhile_all hfrac]
  have hdrop : List.dropWhile isDigit [digitChar a, digitChar b] = [] := by
    simp [List.dropWhile_cons, isDigit_digitChar a ha, isDigit_digitChar b hb]
  rw [hdrop, parseDigits_append_two ip a b ha hb]
  simp [hne, takeExponent]
  norm_num

theorem stod_two_decimals (ip : Str) (a b : Nat) (hne : ip ≠ [])
    (hd : ∀ c ∈ ip, isDigit c = true) (ha : a < 10) (hb : b < 10) :
    stod (ip ++ ['.', digitChar a, digitChar b]) =
      some ((((parseDigits ip * 10 + a) * 10 + b : Nat) : ℚ) / 100) := by
  obtain ⟨c, t, rfl⟩ := List.exists_cons_of_ne_nil hne
  have hc := hd c (List.mem_cons_self _ _)
  unfold stod
  rw [List.cons_append, dropWhile_space_digit _ hc, takeSign_digit _ hc]
  simp only
  rw [← List.cons_append, stodMagnitude_two_decimals (c :: t) a b hne hd ha hb]
  simp

theorem stod_neg_two_decimals (ip : Str) (a b : Nat) (hne : ip ≠ [])
    (hd : ∀ c ∈ ip, isDigit c = true) (ha : a < 10) (hb : b < 10) :
    stod ('-' :: (ip ++ ['.', digitChar a, digitChar b])) =
      some (-((((parseDigits ip * 10 + a) * 10 + b : Nat) : ℚ) / 100)) := by
  unfold stod
  have h1 : ∀ s : Str, List.dropWhile isSpace ('-' :: s) = '-' :: s := by
    intro s; rw [List.dropWhile_cons]; rfl
  rw [h1]
  simp only [takeSign]
  rw [stodMagnitude_two_decimals ip a b hne hd ha hb]
  simp

/-- An amount that is a whole number of hundredths rounds to itself. -/
theorem roundCents_hundredths (c : Int) : roundCents ((c : ℚ) / 100) = c.natAbs := by
  set q : ℚ := (c : ℚ) / 100 with hq
  have hden : (q.den : ℚ) ≠ 0 := by exact_mod_cast q.den_nz
  have h1 : (q.num : ℚ) * 100 = (c : ℚ) * (q.den : ℚ) := by
    have := Rat.num_div_den q
    rw [hq] at this ⊢
    set N := ((c : ℚ) / 100).num
    set D := ((c : ℚ) / 100).den
    field_simp at this
    linarith
  have h2 : q.num * 100 = c * (q.den : Int) := by exact_mod_cast h1
  have h3 : q.num.natAbs * 100 = c.natAbs * q.den := by
    have := congrArg Int.natAbs h2
    simpa [Int.natAbs_mul] using this
  have hpos : 0 < q.den := q.den_pos
  unfold roundCents
  simp only
  rw [h3, Nat.mul_mod_left, Nat.mul_div_cancel _ hpos]
  simp [hpos]

/-- Reading back the two-decimal text of an amount with `stod`. -/
theorem stod_fixed2 (c : Int) : stod (fixed2 ((c : ℚ) / 100)) = some ((c : ℚ) / 100) := by
  have hval : ((((parseDigits (natText (c.natAbs / 100)) * 10 + c.natAbs % 100 / 10) * 10 +
      c.natAbs % 10 : Nat) : ℚ)) = (c.natAbs : ℚ) := by
    rw [parseDigits_natText]
    congr 1
    omega
  have ha : c.natAbs % 100 / 10 < 10 := by omega
  have hb : c.natAbs % 10 < 10 := by omega
  unfold fixed2
  simp only [roundCents_hundredths]
  by_cases hneg : (c : ℚ) / 100 < 0
  · have hc : c < 0 := by
      have : (c : ℚ) < 0 := by linarith
      exact_mod_cast this
    rw [if_pos hneg, List.append_assoc, List.singleton_append,
      stod_neg_two_decimals _ _ _ (natText_ne_nil _) (isDigit_natText _) ha hb, hval]
    congr 1
    have : ((c.natAbs : Int) : ℚ) = -(c : ℚ) := by
      rw [← Int.cast_neg]; congr 1; omega
    rw [show ((c.natAbs : ℚ)) = ((c.natAbs : Int) : ℚ) from (Int.cast_natCast _).symm, this]
    ring
  · have hc : 0 ≤ c := by
      have : (0 : ℚ) ≤ (c : ℚ) := by
        by_contra h
        exact hneg (by linarith)
      exact_mod_cast this
    rw [if_neg hneg, List.nil_append,
      stod_two_decimals _ _ _ (natText_ne_nil _) (isDigit_natText _) ha hb, hval]
    congr 1
    have : ((c.natAbs : Int) : ℚ) = (c : ℚ) := by
      congr 1; omega
    rw [show ((c.natAbs : ℚ)) = ((c.natAbs : Int) : ℚ) from (Int.cast_natCast _).symm, this]

/-! ## Splitting a line -/

theorem foldl_splitStep_field (a : Str) (h : ∀ c ∈ a, c ≠ '|') :
    ∀ (ps : List Str) (cur : Str), a.foldl splitStep (ps, cur) = (ps, cur ++ a) := by
  induction a with
  | nil => intro ps cur; simp
  | cons x t ih =>
    intro ps cur
    have hx : x ≠ '|' := h x (List.mem_cons_self _ _)
    rw [List.foldl_cons]
    simp only [splitStep, hx, if_false]
    rw [ih (fun c hc => h c (List.mem_cons_of_mem _ hc))]
    simp

theorem foldl_splitStep_parts (l : Str) : ∀ (ps : List Str) (cur : Str),
    (l.foldl splitStep (ps, cur)).1 ++ [(l.foldl splitStep (ps, cur)).2] =
      ps ++ ((l.foldl splitStep ([], cur)).1 ++ [(l.foldl splitStep ([], cur)).2]) := by
  induction l with
  | nil => intro ps cur; simp
  | cons x t ih =>
    intro ps cur
    simp only [List.foldl_cons, splitStep]
    by_cases hx : x = '|'
    · simp only [hx, if_true]
      rw [ih (ps ++ [cur]) [], ih ([] ++ [cur]) []]
      simp
    · simp only [hx, if_false]
      exact ih ps (cur ++ [x])

/-- A field without `|` in front of a `|` is the first part. -/
theorem splitPipe_field (a rest : Str) (h : ∀ c ∈ a, c ≠ '|') :
    splitPipe (a ++ '|' :: rest) = a :: splitPipe rest := by
  unfold splitPipe
  simp only [List.foldl_append, List.foldl_cons]
  rw [foldl_splitStep_field a h]
  simp only [splitStep, if_true, List.nil_append]
  rw [foldl_splitStep_parts rest [a] []]
  simp

/-- Text without `|` is one part. -/
theorem splitPipe_last (a : Str) (h : ∀ c ∈ a, c ≠ '|') : splitPipe a = [a] := by
  unfold splitPipe
  simp only
  rw [foldl_splitStep_field a h]
  simp

/-- A line has one part more than it has `|` characters. -/
theorem length_splitPipe (l : Str) : (splitPipe l).length = l.count '|' + 1 := by
  have key : ∀ (l : Str) (ps : List Str) (cur : Str),
      (l.foldl splitStep (ps, cur)).1.length = ps.length + l.count '|' := by
    intro l
    induction l with
    | nil => intro ps cur; simp
    | cons x t ih =>
      intro ps cur
      simp only [List.foldl_cons, splitStep]
      by_cases hx : x = '|'
      · simp only [hx, if_true]
        rw [ih]
        simp
        omega
      · simp only [hx, if_false]
        rw [ih, List.count_cons_of_ne (Ne.symm hx)]
  unfold splitPipe
  simp [key]

theorem isDigit_ne_pipe {c : Char} (h : isDigit c = true) : c ≠ '|' := by
  rintro rfl; exact absurd h (by decide)

theorem intText_no_pipe (i : Int) : ∀ c ∈ intText i, c ≠ '|' := by
  intro c hc
  unfold intText at hc
  split at hc
  · rcases List.mem_cons.mp hc with rfl | hc
    · decide
    · exact isDigit_ne_pipe (isDigit_natText _ c hc)
  · exact isDigit_ne_pipe (isDigit_natText _ c hc)

theorem fixed2_no_pipe (q : ℚ) : ∀ c ∈ fixed2 q, c ≠ '|' := by
  intro c hc
  unfold fixed2 at hc
  simp only [List.mem_append, List.mem_cons, List.mem_singleton, List.not_mem_nil,
    or_false] at hc
  rcases hc with (hc | hc) | hc
  · split at hc
    · simp only [List.mem_singleton] at hc; subst hc; decide
    · simp at hc
  · exact isDigit_ne_pipe (isDigit_natText _ c hc)
  · rcases hc with rfl | rfl | rfl
    · decide
    · exact isDigit_ne_pipe (isDigit_digitChar _ (by omega))
    · exact isDigit_ne_pipe (isDigit_digitChar _ (by omega))

theorem clean_no_pipe (s : Str) : ∀ c ∈ clean s, c ≠ '|' := by
  intro c hc
  unfold clean at hc
  obtain ⟨x, -, rfl⟩ := List.mem_map.mp hc
  split
  · decide
  · rename_i h; exact fun hx => h (Or.inl hx)

theorem clean_id (s : Str) (h : ∀ c ∈ s, c ≠ '|' ∧ c ≠ '\n' ∧ c ≠ '\r') : clean s = s := by
  unfold clean
  conv_rhs => rw [← List.map_id s]
  apply List.map_congr_left
  intro c hc
  obtain ⟨h1, h2, h3⟩ := h c hc
  simp [h1, h2, h3]

/-- The parts of a serialized record whose date and category have no `|`. -/
theorem splitPipe_serialize (e : Expense) (hd : ∀ c ∈ e.date, c ≠ '|')
    (hc : ∀ c ∈ e.category, c ≠ '|') :
    splitPipe e.serialize = [intText e.id, e.date, e.category, fixed2 e.amount, clean e.note] := by
  unfold Expense.serialize
  simp only [List.append_assoc, List.cons_append]
  rw [splitPipe_field _ _ (intText_no_pipe _), splitPipe_field _ _ hd, splitPipe_field _ _ hc,
    splitPipe_field _ _ (fixed2_no_pipe _), splitPipe_last _ (clean_no_pipe _)]

/-- Reading back a serialized record: the fields other than the note and the
amount come back as they are, the note cleaned, the amount as `stod` reads its
two-decimal text. -/
theorem deserialize_serialize_gen (e : Expense) (h1 : INT_MIN ≤ e.id) (h2 : e.id ≤ INT_MAX)
    (hd : ∀ c ∈ e.date, c ≠ '|') (hc : ∀ c ∈ e.category, c ≠ '|') :
    Expense.deserialize e.serialize =
      { id := e.id, date := e.date, category := e.category,
        amount := (stod (fixed2 e.amount)).getD 0, note := clean e.note } := by
  unfold Expense.deserialize
  simp only [splitPipe_serialize e hd hc]
  simp [stoi_intText e.id h1 h2]

/-! ## Round trip of a record -/

/-- C1 (as amended): for every Expense whose id is an `int`, whose date and
category contain no `|`, whose note contains no `|`, newline or carriage
return, and whose amount is a whole number of hundredths,
`deserialize(serialize(e))` equals `e` in all five fields. -/
theorem C1_roundtrip (e : Expense) (hid : INT_MIN ≤ e.id ∧ e.id ≤ INT_MAX)
    (hdate : ∀ c ∈ e.date, c ≠ '|') (hcat : ∀ c ∈ e.category, c ≠ '|')
    (hnote : ∀ c ∈ e.note, c ≠ '|' ∧ c ≠ '\n' ∧ c ≠ '\r')
    (hamount : ∃ k : Int, e.amount = (k : ℚ) / 100) :
    Expense.deserialize e.serialize = e := by
  obtain ⟨k, hk⟩ := hamount
  rw [deserialize_serialize_gen e hid.1 hid.2 hdate hcat, clean_id e.note hnote, hk,
    stod_fixed2 k, ← hk]
  rfl

/-- Witness of C1: the record `7|2024-03-09|food|-12.34|lunch, late`. -/
theorem C1_roundtrip_witness :
    (INT_MIN ≤ sampleExpense.id ∧ sampleExpense.id ≤ INT_MAX) ∧
    (∀ c ∈ sampleExpense.date, c ≠ '|') ∧ (∀ c ∈ sampleExpense.category, c ≠ '|') ∧
    (∀ c ∈ sampleExpense.note, c ≠ '|' ∧ c ≠ '\n' ∧ c ≠ '\r') ∧
    (∃ k : Int, sampleExpense.amount = (k : ℚ) / 100) ∧
    Expense.deserialize sampleExpense.serialize = sampleExpense :=
  ⟨by decide, by decide, by decide, by decide, ⟨-1234, rfl⟩,
    C1_roundtrip sampleExpense (by decide) (by decide) (by decide) (by decide) ⟨-1234, rfl⟩⟩

/-- C1 fails as stated.  Each of the three records has a note without `|` and
without newline, and none comes back equal: an amount of 0.0625 comes back as
0.06, a date `2024|01` moves the fields, and a note made of a carriage return
comes back as a space. -/
theorem C1_roundtrip_counterexample :
    ((∀ c ∈ "x".data, c ≠ '|' ∧ c ≠ '\n') ∧
      Expense.deserialize
          (Expense.serialize
            { id := 1, date := "2024-01-15".data, category := "food".data, amount := 1 / 16,
              note := "x".data }) =
        { id := 1, date := "2024-01-15".data, category := "food".data, amount := 3 / 50,
          note := "x".data } ∧
      ((3 : ℚ) / 50 ≠ 1 / 16)) ∧
    ((∀ c ∈ "x".data, c ≠ '|' ∧ c ≠ '\n') ∧
      Expense.deserialize
          (Expense.serialize
            { id := 1, date := "2024|01".data, category := "food".data, amount := 1,
              note := "x".data }) =
        { id := 1, date := "2024".data, category := "01".data, amount := 0,
          note := "1.00".data }) ∧
    ((∀ c ∈ "\r".data, c ≠ '|' ∧ c ≠ '\n') ∧
      Expense.deserialize
          (Expense.serialize
            { id := 1, date := "2024-01-15".data, category := "food".data, amount := 1,
              note := "\r".data }) =
        { id := 1, date := "2024-01-15".data, category := "food".data, amount := 1,
          note := " ".data }) := by
  refine ⟨⟨by decide, by decide!, by norm_num⟩, ⟨by decide, by decide!⟩, ⟨by decide, by decide!⟩⟩

/-! ## Saving and loading -/

theorem foldl_save_acc (l : List Expense) : ∀ acc : Str,
    l.foldl (fun ofs e => ofs ++ e.serialize ++ ['\n']) acc =
      acc ++ l.foldl (fun ofs e => ofs ++ e.serialize ++ ['\n']) [] := by
  induction l with
  | nil => intro acc; simp
  | cons e t ih =>
    intro acc
    simp only [List.foldl_cons]
    rw [ih (acc ++ e.serialize ++ ['\n']), ih ([] ++ e.serialize ++ ['\n'])]
    simp

theorem saveText_nil : saveText [] = [] := rfl

theorem saveText_cons (e : Expense) (l : List Expense) :
    saveText (e :: l) = e.serialize ++ '\n' :: saveText l := by
  unfold saveText
  rw [List.foldl_cons, foldl_save_acc]
  simp

theorem saveText_append (l1 l2 : List Expense) :
    saveText (l1 ++ l2) = saveText l1 ++ saveText l2 := by
  unfold saveText
  rw [List.foldl_append, foldl_save_acc]

theorem getlinesAux_line (a : Str) (h : ∀ c ∈ a, c ≠ '\n') (rest : Str) : ∀ cur : Str,
    getlinesAux (a ++ '\n' :: rest) cur = (cur ++ a) :: getlinesAux rest [] := by
  induction a with
  | nil => intro cur; simp [getlinesAux]
  | cons x t ih =>
    intro cur
    have hx : x ≠ '\n' := h x (List.mem_cons_self _ _)
    rw [List.cons_append, getlinesAux]
    simp only [hx, if_false]
    rw [ih (fun c hc => h c (List.mem_cons_of_mem _ hc))]
    simp

/-- The lines of a saved file are the serialized records, when none of them
holds a newline. -/
theorem getlines_saveText (l : List Expense)
    (h : ∀ e ∈ l, ∀ c ∈ e.serialize, c ≠ '\n') :
    getlines (saveText l) = l.map Expense.serialize := by
  induction l with
  | nil => simp [saveText_nil, getlines, getlinesAux]
  | cons e t ih =>
    rw [saveText_cons]
    unfold getlines
    rw [getlinesAux_line _ (h e (List.mem_cons_self _ _))]
    have := ih (fun x hx => h x (List.mem_cons_of_mem _ hx))
    unfold getlines at this
    rw [this]
    simp

theorem loadLoop_acc (lines : List Str) : ∀ out : List Expense,
    loadLoop lines out = out ++ loadLoop lines [] := by
  induction lines with
  | nil => intro out; simp [loadLoop]
  | cons line rest ih =>
    intro out
    unfold loadLoop
    by_cases h : line = []
    · simp only [h, if_true]; exact ih out
    · simp only [h, if_false]
      by_cases h2 : (Expense.deserialize line).id > 0
      · simp only [h2, if_true]
        rw [ih (out ++ [Expense.deserialize line]), ih ([] ++ [Expense.deserialize line])]
        simp
      · simp only [h2, if_false]; exact ih out

theorem loadLoop_cons_keep (line : Str) (rest : List Str) (h1 : line ≠ [])
    (h2 : (Expense.deserialize line).id > 0) :
    loadLoop (line :: rest) [] = Expense.deserialize line :: loadLoop rest [] := by
  rw [loadLoop]
  simp only [h1, if_false, h2, if_true]
  rw [loadLoop_acc]
  simp

theorem loadLoop_cons_drop (line : Str) (rest : List Str)
    (h : line = [] ∨ ¬ (Expense.deserialize line).id > 0) :
    loadLoop (line :: rest) [] = loadLoop rest [] := by
  rw [loadLoop]
  by_cases h1 : line = []
  · simp [h1]
  · rcases h with h | h
    · exact absurd h h1
    · simp [h1, h]

theorem isDigit_ne_newline {c : Char} (h : isDigit c = true) : c ≠ '\n' := by
  rintro rfl; exact absurd h (by decide)

theorem intText_no_newline (i : Int) : ∀ c ∈ intText i, c ≠ '\n' := by
  intro c hc
  unfold intText at hc
  split at hc
  · rcases List.mem_cons.mp hc with rfl | hc
    · decide
    · exact isDigit_ne_newline (isDigit_natText _ c hc)
  · exact isDigit_ne_newline (isDigit_natText _ c hc)

theorem fixed2_no_newline (q : ℚ) : ∀ c ∈ fixed2 q, c ≠ '\n' := by
  intro c hc
  unfold fixed2 at hc
  simp only [List.mem_append, List.mem_cons, List.mem_singleton, List.not_mem_nil,
    or_false] at hc
  rcases hc with (hc | hc) | hc
  · split at hc
    · simp only [List.mem_singleton] at hc; subst hc; decide
    · simp at hc
  · exact isDigit_ne_newline (isDigit_natText _ c hc)
  · rcases hc with rfl | rfl | rfl
    · decide
    · exact isDigit_ne_newline (isDigit_digitChar _ (by omega))
    · exact isDigit_ne_newline (isDigit_digitChar _ (by omega))

theorem clean_no_newline (s : Str) : ∀ c ∈ clean s, c ≠ '\n' := by
  intro c hc
  unfold clean at hc
  obtain ⟨x, -, rfl⟩ := List.mem_map.mp hc
  split
  · decide
  · rename_i h; exact fun hx => h (Or.inr (Or.inl hx))

/-- A serialized record is one line when its date and category hold no
newline. -/
theorem serialize_no_newline (e : Expense) (hd : ∀ c ∈ e.date, c ≠ '\n')
    (hc : ∀ c ∈ e.category, c ≠ '\n') : ∀ c ∈ e.serialize, c ≠ '\n' := by
  intro c hmem
  unfold Expense.serialize at hmem
  simp only [List.mem_append, List.mem_cons] at hmem
  rcases hmem with (((h | h | h) | h | h) | h | h) | h | h
  · exact intText_no_newline _ c h
  · subst h; decide
  · exact hd c h
  · subst h; decide
  · exact hc c h
  · subst h; decide
  · exact fixed2_no_newline _ c h
  · subst h; decide
  · exact clean_no_newline _ c h

theorem serialize_ne_nil (e : Expense) : e.serialize ≠ [] := by
  unfold Expense.serialize
  simp

theorem storable_roundtrip (e : Expense) (h : e.storable) :
    Expense.deserialize e.serialize = e := by
  obtain ⟨⟨h1, h2⟩, hd, hc, hn, ha⟩ := h
  have hmin : INT_MIN ≤ e.id := by unfold INT_MIN; omega
  exact (deserialize_serialize_gen e hmin h2 (fun c hc' => (hd c hc').1)
    (fun c hc' => (hc c hc').1)).trans (by
      obtain ⟨k, hk⟩ := ha
      rw [clean_id e.note hn, hk, stod_fixed2 k, ← hk]
      rfl)

/-- Loading what `save` wrote gives the saved records back when all of them
are storable. -/
theorem loadLoop_saveText (l : List Expense) (h : ∀ e ∈ l, e.storable) :
    loadLoop (getlines (saveText l)) [] = l := by
  rw [getlines_saveText l (fun e he => serialize_no_newline e
    (fun c hc => ((h e he).2.1 c hc).2) (fun c hc => ((h e he).2.2.1 c hc).2))]
  induction l with
  | nil => rfl
  | cons e t ih =>
    have he := h e (List.mem_cons_self _ _)
    rw [List.map_cons, loadLoop_cons_keep _ _ (serialize_ne_nil e)
      (by rw [storable_roundtrip e he]; exact he.1.1), storable_roundtrip e he,
      ih (fun x hx => h x (List.mem_cons_of_mem _ hx))]

/-! ## What the mutating operations leave in the file -/

theorem persist_expenses (m : ExpenseManager) : m.persist.2.expenses_ = m.expenses_ := rfl

theorem persist_nextId (m : ExpenseManager) : m.persist.2.nextId_ = m.nextId_ := rfl

theorem persist_content (m : ExpenseManager) (hw : m.storage_.writable = true) :
    m.persist.2.storage_.content = some (saveText m.expenses_) := by
  simp [ExpenseManager.persist, Storage.save, hw]

/-- After a successful call with a writable file, the file holds the saved
text of the list in memory. -/
theorem step_content (m : ExpenseManager) (op : Op) (hw : m.storage_.writable = true)
    (hs : m.succeeds op = true) :
    (m.step op).storage_.content = some (saveText (m.step op).expenses_) := by
  cases op with
  | add d c a n =>
    simp only [ExpenseManager.step, ExpenseManager.addExpense]
    exact persist_content _ hw
  | remove i =>
    simp only [ExpenseManager.succeeds, ExpenseManager.removeExpense] at hs
    simp only [ExpenseManager.step, ExpenseManager.removeExpense]
    split at hs
    · rename_i hlt
      rw [if_pos hlt]
      exact persist_content _ hw
    · simp at hs
  | edit i d c a n =>
    simp only [ExpenseManager.succeeds, ExpenseManager.editExpense] at hs
    simp only [ExpenseManager.step, ExpenseManager.editExpense]
    split at hs
    · rename_i l hl
      simp only [hl]
      exact persist_content _ hw
    · simp at hs

/-- C2 (as amended): for every manager state and every successful addExpense,
editExpense or removeExpense with the save succeeding, if every record of the
in-memory list after the operation is storable (positive `int` id, date and
category without `|` and newline, note without `|`, newline and carriage
return, amount a whole number of hundredths), then `load` applied to the file
the operation wrote returns the in-memory list, record by record and in order. -/
theorem C2_persistence_consistency (m : ExpenseManager) (op : Op)
    (hw : m.storage_.writable = true) (hs : m.succeeds op = true)
    (hst : ∀ e ∈ (m.step op).expenses_, e.storable) :
    (m.step op).storage_.load = (m.step op).expenses_ := by
  unfold Storage.load
  rw [step_content m op hw hs]
  exact loadLoop_saveText _ hst

theorem sampleExpense_storable : sampleExpense.storable :=
  ⟨by decide, by decide, by decide, by decide, ⟨-1234, rfl⟩⟩

theorem sampleStep_storable : ∀ e ∈ (sampleManager.step sampleAdd).expenses_, e.storable := by
  intro e he
  have hl : (sampleManager.step sampleAdd).expenses_ = [sampleExpense, sampleAdded] := rfl
  rw [hl] at he
  simp only [List.mem_cons, List.mem_singleton, List.not_mem_nil, or_false] at he
  rcases he with rfl | rfl
  · exact sampleExpense_storable
  · exact ⟨by decide, by decide, by decide, by decide, ⟨500, rfl⟩⟩

/-- Witness of C2: adding `2024-03-10|fun|5.00|cinema` to a manager that holds
the sample record. -/
theorem C2_persistence_consistency_witness :
    sampleManager.storage_.writable = true ∧ sampleManager.succeeds sampleAdd = true ∧
    (∀ e ∈ (sampleManager.step sampleAdd).expenses_, e.storable) ∧
    (sampleManager.step sampleAdd).storage_.load = (sampleManager.step sampleAdd).expenses_ :=
  ⟨rfl, rfl, sampleStep_storable,
    C2_persistence_consistency sampleManager sampleAdd rfl rfl sampleStep_storable⟩

/-- C2 fails as stated.  On a fresh manager with a writable file, each of
three successful `addExpense` calls leaves a file from which `load` returns
something else than the in-memory list: a note `a|b` is loaded as `a b`, an
amount 0.0625 is loaded as 0.06, and a record whose date holds a newline is
not loaded at all. -/
theorem C2_persistence_consistency_counterexample :
    freshManager.storage_.writable = true ∧
    ((freshManager.addExpense "2024-01-15".data "food".data 1 "a|b".data).2.expenses_ =
        [{ id := 1, date := "2024-01-15".data, category := "food".data, amount := 1,
           note := "a|b".data }] ∧
      (freshManager.addExpense "2024-01-15".data "food".data 1 "a|b".data).2.storage_.load =
        [{ id := 1, date := "2024-01-15".data, category := "food".data, amount := 1,
           note := "a b".data }]) ∧
    ((freshManager.addExpense "2024-01-15".data "food".data (1 / 16) "x".data).2.expenses_ =
        [{ id := 1, date := "2024-01-15".data, category := "food".data, amount := 1 / 16,
           note := "x".data }] ∧
      (freshManager.addExpense "2024-01-15".data "food".data (1 / 16) "x".data).2.storage_.load =
        [{ id := 1, date := "2024-01-15".data, category := "food".data, amount := 3 / 50,
           note := "x".data }]) ∧
    ((freshManager.addExpense "2024\n01".data "food".data 1 "x".data).2.expenses_ =
        [{ id := 1, date := "2024\n01".data, category := "food".data, amount := 1,
           note := "x".data }] ∧
      (freshManager.addExpense "2024\n01".data "food".data 1 "x".data).2.storage_.load = []) := by
  refine ⟨rfl, ⟨by decide!, by decide!⟩, ⟨by decide!, by decide!⟩, ⟨by decide!, by decide!⟩⟩

/-! ## Ids: loading, the counter, and the three calls -/

theorem wrapInt_of_int (x : Int) (h1 : INT_MIN ≤ x) (h2 : x ≤ INT_MAX) : wrapInt x = x := by
  unfold INT_MIN at h1
  unfold INT_MAX at h2
  unfold wrapInt
  omega

theorem wrapInt_range (x : Int) : INT_MIN ≤ wrapInt x ∧ wrapInt x ≤ INT_MAX := by
  unfold INT_MIN INT_MAX wrapInt
  omega

theorem wrapInt_succ (x : Int) : wrapInt (wrapInt x + 1) = wrapInt (x + 1) := by
  unfold wrapInt
  omega

theorem stoi_range (s : Str) (v : Int) (h : stoi s = some v) : INT_MIN ≤ v ∧ v ≤ INT_MAX := by
  unfold stoi at h
  simp only at h
  split_ifs at h with h1 hn hr hr
  · cases h; exact hr
  · cases h; exact hr

theorem deserialize_id_range (line : Str) :
    INT_MIN ≤ (Expense.deserialize line).id ∧ (Expense.deserialize line).id ≤ INT_MAX := by
  unfold Expense.deserialize
  simp only
  split
  · simp only
    cases hs : stoi ((splitPipe line).getD 0 []) with
    | none => simp [INT_MIN, INT_MAX]
    | some v => simpa using stoi_range _ v hs
  · simp [INT_MIN, INT_MAX]

theorem mem_loadLoop (lines : List Str) (e : Expense) (h : e ∈ loadLoop lines []) :
    ∃ line ∈ lines, line ≠ [] ∧ e = Expense.deserialize line ∧ 0 < e.id := by
  induction lines with
  | nil => simp [loadLoop] at h
  | cons line rest ih =>
    by_cases hk : line ≠ [] ∧ (Expense.deserialize line).id > 0
    · rw [loadLoop_cons_keep line rest hk.1 hk.2] at h
      rcases List.mem_cons.mp h with rfl | h
      · exact ⟨line, List.mem_cons_self _ _, hk.1, rfl, hk.2⟩
      · obtain ⟨l, hl, hr⟩ := ih h
        exact ⟨l, List.mem_cons_of_mem _ hl, hr⟩
    · rw [loadLoop_cons_drop line rest (by
        by_cases h1 : line = []
        · exact Or.inl h1
        · exact Or.inr (fun h2 => hk ⟨h1, h2⟩))] at h
      obtain ⟨l, hl, hr⟩ := ih h
      exact ⟨l, List.mem_cons_of_mem _ hl, hr⟩

/-- Every loaded record has a positive id that fits in `int`. -/
theorem load_id_pos (s : Storage) (e : Expense) (h : e ∈ s.load) : 0 < e.id ∧ e.id ≤ INT_MAX := by
  unfold Storage.load at h
  split at h
  · simp at h
  · obtain ⟨line, -, -, rfl, hpos⟩ := mem_loadLoop _ e h
    exact ⟨hpos, (deserialize_id_range line).2⟩

theorem foldl_maxId_ge (l : List Expense) : ∀ a : Int,
    a ≤ l.foldl (fun maxId e => if e.id > maxId then e.id else maxId) a ∧
    (∀ e ∈ l, e.id ≤ l.foldl (fun maxId e => if e.id > maxId then e.id else maxId) a) ∧
    (l.foldl (fun maxId e => if e.id > maxId then e.id else maxId) a = a ∨
      ∃ e ∈ l, l.foldl (fun maxId e => if e.id > maxId then e.id else maxId) a = e.id) := by
  induction l with
  | nil => intro a; simp
  | cons x t ih =>
    intro a
    simp only [List.foldl_cons]
    by_cases hx : x.id > a
    · simp only [hx, if_true]
      obtain ⟨h1, h2, h3⟩ := ih x.id
      refine ⟨by omega, ?_, ?_⟩
      · intro e he
        rcases List.mem_cons.mp he with rfl | he
        · exact h1
        · exact h2 e he
      · rcases h3 with h3 | ⟨e, he, h3⟩
        · exact Or.inr ⟨x, List.mem_cons_self _ _, h3⟩
        · exact Or.inr ⟨e, List.mem_cons_of_mem _ he, h3⟩
    · simp only [hx, if_false]
      obtain ⟨h1, h2, h3⟩ := ih a
      refine ⟨h1, ?_, ?_⟩
      · intro e he
        rcases List.mem_cons.mp he with rfl | he
        · omega
        · exact h2 e he
      · rcases h3 with h3 | ⟨e, he, h3⟩
        · exact Or.inl h3
        · exact Or.inr ⟨e, List.mem_cons_of_mem _ he, h3⟩

theorem maxIdOf_nonneg (l : List Expense) : 0 ≤ maxIdOf l := (foldl_maxId_ge l 0).1

theorem le_maxIdOf (l : List Expense) (e : Expense) (h : e ∈ l) : e.id ≤ maxIdOf l :=
  (foldl_maxId_ge l 0).2.1 e h

theorem maxIdOf_attained (l : List Expense) : maxIdOf l = 0 ∨ ∃ e ∈ l, maxIdOf l = e.id :=
  (foldl_maxId_ge l 0).2.2

/-- The value of `maxId` is the id of a record that no other exceeds, when
there is one with a positive id. -/
theorem maxIdOf_eq (l : List Expense) (x : Expense) (hx : x ∈ l) (hpos : 0 < x.id)
    (hmax : ∀ y ∈ l, y.id ≤ x.id) : maxIdOf l = x.id := by
  have h1 := le_maxIdOf l x hx
  rcases maxIdOf_attained l with h | ⟨e, he, h⟩
  · omega
  · have := hmax e he
    omega

theorem maxIdOf_nil : maxIdOf [] = 0 := rfl

theorem maxIdOf_congr (l1 l2 : List Expense) (h : l1.map Expense.id = l2.map Expense.id) :
    maxIdOf l1 = maxIdOf l2 := by
  have key : ∀ (l : List Expense) (a : Int),
      l.foldl (fun maxId e => if e.id > maxId then e.id else maxId) a =
        (l.map Expense.id).foldl (fun maxId i => if i > maxId then i else maxId) a := by
    intro l
    induction l with
    | nil => intro a; rfl
    | cons x t ih => intro a; simp only [List.foldl_cons, List.map_cons]; exact ih _
  unfold maxIdOf
  rw [key, key, h]

theorem mem_removeIf (p : Expense → Bool) (l : List Expense) (e : Expense) :
    e ∈ removeIf p l ↔ e ∈ l ∧ p e = false := by
  induction l with
  | nil => simp [removeIf]
  | cons x t ih =>
    unfold removeIf
    by_cases hp : p x = true
    · simp only [hp, if_true, ih, List.mem_cons]
      constructor
      · rintro ⟨h1, h2⟩; exact ⟨Or.inr h1, h2⟩
      · rintro ⟨h1 | h1, h2⟩
        · subst h1; rw [hp] at h2; exact absurd h2 (by simp)
        · exact ⟨h1, h2⟩
    · have hp' : p x = false := by simpa using hp
      simp only [hp', Bool.false_eq_true, if_false, List.mem_cons, ih]
      constructor
      · rintro (h1 | ⟨h1, h2⟩)
        · subst h1; exact ⟨Or.inl rfl, hp'⟩
        · exact ⟨Or.inr h1, h2⟩
      · rintro ⟨h1 | h1, h2⟩
        · exact Or.inl h1
        · exact Or.inr ⟨h1, h2⟩

theorem removeIf_eq_filter (p : Expense → Bool) (l : List Expense) :
    removeIf p l = l.filter (fun x => !p x) := by
  induction l with
  | nil => rfl
  | cons x t ih =>
    unfold removeIf
    by_cases hp : p x = true
    · simp [hp, ih]
    · have hp' : p x = false := by simpa using hp
      simp [hp', ih]

theorem removeIf_sublist (p : Expense → Bool) (l : List Expense) :
    List.Sublist (removeIf p l) l := by
  rw [removeIf_eq_filter]
  exact List.filter_sublist l

theorem removeExpense_expenses (m : ExpenseManager) (i : Int) :
    (m.removeExpense i).2.expenses_ = removeIf (fun x => x.id = i) m.expenses_ := by
  unfold ExpenseManager.removeExpense
  simp only
  split <;> rfl

theorem removeExpense_nextId (m : ExpenseManager) (i : Int) :
    (m.removeExpense i).2.nextId_ = m.nextId_ := by
  unfold ExpenseManager.removeExpense
  simp only
  split <;> rfl

theorem editLoop_ids (i : Int) (d c : Str) (a : ℚ) (n : Str) (l l1 : List Expense)
    (h : editLoop i d c a n l = some l1) : l1.map Expense.id = l.map Expense.id := by
  induction l generalizing l1 with
  | nil => simp [editLoop] at h
  | cons x t ih =>
    unfold editLoop at h
    split at h
    · simp only [Option.some.injEq] at h
      rw [← h]; simp
    · split at h
      · rename_i r hr
        simp only [Option.some.injEq] at h
        rw [← h]
        simp [ih r hr]
      · simp at h

theorem editLoop_none_iff (i : Int) (d c : Str) (a : ℚ) (n : Str) (l : List Expense) :
    editLoop i d c a n l = none ↔ ∀ e ∈ l, e.id ≠ i := by
  induction l with
  | nil => simp [editLoop]
  | cons x t ih =>
    unfold editLoop
    by_cases hx : x.id = i
    · simp [hx]
    · simp only [hx, if_false, List.mem_cons, forall_eq_or_imp, ne_eq, not_false_eq_true,
        true_and]
      rw [← ih]
      cases editLoop i d c a n t <;> simp

theorem editExpense_ids (m : ExpenseManager) (i : Int) (d c : Str) (a : ℚ) (n : Str) :
    (m.editExpense i d c a n).2.expenses_.map Expense.id = m.expenses_.map Expense.id := by
  unfold ExpenseManager.editExpense
  split
  · rename_i l hl
    exact editLoop_ids i d c a n _ l hl
  · rfl

theorem editExpense_nextId (m : ExpenseManager) (i : Int) (d c : Str) (a : ℚ) (n : Str) :
    (m.editExpense i d c a n).2.nextId_ = m.nextId_ := by
  unfold ExpenseManager.editExpense
  split <;> rfl

theorem addExpense_expenses (m : ExpenseManager) (d c : Str) (a : ℚ) (n : Str) :
    (m.addExpense d c a n).2.expenses_ =
      m.expenses_ ++ [{ id := m.nextId_, date := d, category := c, amount := a, note := n }] :=
  rfl

theorem addExpense_nextId (m : ExpenseManager) (d c : Str) (a : ℚ) (n : Str) :
    (m.addExpense d c a n).2.nextId_ = wrapInt (m.nextId_ + 1) := rfl

theorem addExpense_id (m : ExpenseManager) (d c : Str) (a : ℚ) (n : Str) :
    (m.addExpense d c a n).1.id = m.nextId_ := rfl

/-! ## The list and the counter along a session -/

theorem run_nil (m : ExpenseManager) : m.run [] = m := rfl

theorem run_cons (m : ExpenseManager) (op : Op) (ops : List Op) :
    m.run (op :: ops) = (m.step op).run ops := rfl

theorem run_append (m : ExpenseManager) (ops1 ops2 : List Op) :
    m.run (ops1 ++ ops2) = (m.run ops1).run ops2 := by
  unfold ExpenseManager.run
  rw [List.foldl_append]

theorem countAdds_append (ops1 ops2 : List Op) :
    countAdds (ops1 ++ ops2) = countAdds ops1 + countAdds ops2 := by
  induction ops1 with
  | nil => simp [countAdds]
  | cons op t ih =>
    cases op <;> rw [List.cons_append] <;> simp only [countAdds] <;> rw [ih]
    omega

/-- The constructor leaves every id positive and below the counter. -/
theorem init_idsBelow (st : Storage) :
    (ExpenseManager.init st).idsBelow (maxIdOf st.load + 1) := by
  refine ⟨?_, rfl, ?_⟩
  · intro e he
    have he' : e ∈ st.load := he
    have := le_maxIdOf st.load e he'
    exact ⟨(load_id_pos st e he').1, by omega⟩
  · have := maxIdOf_nonneg st.load
    omega

theorem idsBelow_mono_list (m m1 : ExpenseManager) (N : Int) (h : m.idsBelow N)
    (hl : ∀ e ∈ m1.expenses_, ∃ x ∈ m.expenses_, x.id = e.id) (hn : m1.nextId_ = m.nextId_) :
    m1.idsBelow N := by
  refine ⟨?_, hn.trans h.2.1, h.2.2⟩
  intro e he
  obtain ⟨x, hx, hxe⟩ := hl e he
  rw [← hxe]
  exact h.1 x hx

theorem removeExpense_idsBelow (m : ExpenseManager) (N : Int) (i : Int) (h : m.idsBelow N) :
    (m.removeExpense i).2.idsBelow N := by
  apply idsBelow_mono_list m _ N h _ (removeExpense_nextId m i)
  intro e he
  rw [removeExpense_expenses, mem_removeIf] at he
  exact ⟨e, he.1, rfl⟩

theorem editExpense_idsBelow (m : ExpenseManager) (N : Int) (i : Int) (d c : Str) (a : ℚ)
    (n : Str) (h : m.idsBelow N) : (m.editExpense i d c a n).2.idsBelow N := by
  apply idsBelow_mono_list m _ N h _ (editExpense_nextId m i d c a n)
  intro e he
  have hm : e.id ∈ (m.editExpense i d c a n).2.expenses_.map Expense.id :=
    List.mem_map_of_mem _ he
  rw [editExpense_ids] at hm
  obtain ⟨x, hx, hxe⟩ := List.mem_map.mp hm
  exact ⟨x, hx, hxe⟩

theorem addExpense_idsBelow (m : ExpenseManager) (N : Int) (d c : Str) (a : ℚ) (n : Str)
    (h : m.idsBelow N) (hN : N ≤ INT_MAX) :
    (m.addExpense d c a n).1.id = N ∧ (m.addExpense d c a n).2.idsBelow (N + 1) := by
  obtain ⟨h1, h2, h3⟩ := h
  have hw : wrapInt N = N := wrapInt_of_int N (by unfold INT_MIN; omega) hN
  refine ⟨by rw [addExpense_id, h2, hw], ?_, ?_, by omega⟩
  · intro e he
    rw [addExpense_expenses, List.mem_append, List.mem_singleton] at he
    rcases he with he | rfl
    · have := h1 e he
      exact ⟨this.1, by omega⟩
    · simp only
      rw [h2, hw]
      exact ⟨by omega, by omega⟩
  · rw [addExpense_nextId, h2, wrapInt_succ]

theorem step_idsBelow (m : ExpenseManager) (N : Int) (op : Op) (h : m.idsBelow N)
    (hN : N + countAdds [op] ≤ INT_MAX + 1) :
    (m.step op).idsBelow (N + countAdds [op]) := by
  cases op with
  | add d c a n =>
    simp only [countAdds] at hN ⊢
    exact (addExpense_idsBelow m N d c a n h (by omega)).2
  | remove i =>
    simp only [countAdds, Nat.cast_zero, add_zero]
    exact removeExpense_idsBelow m N i h
  | edit i d c a n =>
    simp only [countAdds, Nat.cast_zero, add_zero]
    exact editExpense_idsBelow m N i d c a n h

/-- While the assigned ids fit in `int`, every id in memory stays positive and
below the counter, which has advanced by the number of `addExpense` calls. -/
theorem run_idsBelow (ops : List Op) : ∀ (m : ExpenseManager) (N : Int), m.idsBelow N →
    N + countAdds ops ≤ INT_MAX + 1 → (m.run ops).idsBelow (N + countAdds ops) := by
  induction ops with
  | nil => intro m N h _; simpa [countAdds, run_nil] using h
  | cons op t ih =>
    intro m N h hN
    have hc : countAdds (op :: t) = countAdds [op] + countAdds t :=
      countAdds_append [op] t
    rw [hc] at hN ⊢
    rw [run_cons]
    have hs := step_idsBelow m N op h (by push_cast at hN; omega)
    have := ih (m.step op) (N + countAdds [op]) hs (by push_cast at hN ⊢; omega)
    push_cast at this ⊢
    rw [← add_assoc]
    exact this

theorem step_nodup (m : ExpenseManager) (N : Int) (op : Op) (h : m.idsBelow N)
    (hN : N + countAdds [op] ≤ INT_MAX + 1) (hd : (m.expenses_.map Expense.id).Nodup) :
    ((m.step op).expenses_.map Expense.id).Nodup := by
  cases op with
  | add d c a n =>
    simp only [countAdds] at hN
    have hid := (addExpense_idsBelow m N d c a n h (by omega)).1
    rw [addExpense_id] at hid
    simp only [ExpenseManager.step]
    rw [addExpense_expenses, List.map_append, List.map_singleton]
    apply List.Nodup.append hd (List.nodup_singleton _)
    intro i hi1 hi2
    rw [List.mem_singleton] at hi2
    obtain ⟨x, hx, hxi⟩ := List.mem_map.mp hi1
    have := (h.1 x hx).2
    simp only at hi2
    omega
  | remove i =>
    simp only [ExpenseManager.step]
    rw [removeExpense_expenses]
    exact List.Nodup.sublist (List.Sublist.map _ (removeIf_sublist _ _)) hd
  | edit i d c a n =>
    simp only [ExpenseManager.step]
    rw [editExpense_ids]
    exact hd

theorem run_nodup (ops : List Op) : ∀ (m : ExpenseManager) (N : Int), m.idsBelow N →
    N + countAdds ops ≤ INT_MAX + 1 → (m.expenses_.map Expense.id).Nodup →
    ((m.run ops).expenses_.map Expense.id).Nodup := by
  induction ops with
  | nil => intro m N _ _ hd; exact hd
  | cons op t ih =>
    intro m N h hN hd
    have hc : countAdds (op :: t) = countAdds [op] + countAdds t :=
      countAdds_append [op] t
    rw [hc] at hN
    rw [run_cons]
    exact ih (m.step op) (N + countAdds [op])
      (step_idsBelow m N op h (by push_cast at hN; omega)) (by push_cast at hN ⊢; omega)
      (step_nodup m N op h (by push_cast at hN; omega) hd)

/-- C3 (as amended): construct the manager from any backing-file content and
apply any finite sequence of addExpense, removeExpense and editExpense calls
in which the assigned ids fit in `int` (largest loaded id plus number of
addExpense calls at most 2147483647).  Then every record in the in-memory
list has id > 0, and if no two loaded records have the same id then no two
records in the list have the same id. -/
theorem C3_ids_positive_unique (st : Storage) (ops : List Op)
    (hfit : maxIdOf st.load + countAdds ops ≤ INT_MAX) :
    (∀ e ∈ ((ExpenseManager.init st).run ops).expenses_, 0 < e.id) ∧
    ((st.load.map Expense.id).Nodup →
      (((ExpenseManager.init st).run ops).expenses_.map Expense.id).Nodup) := by
  have hN : maxIdOf st.load + 1 + countAdds ops ≤ INT_MAX + 1 := by omega
  constructor
  · intro e he
    exact ((run_idsBelow ops _ _ (init_idsBelow st) hN).1 e he).1
  · intro hd
    exact run_nodup ops _ _ (init_idsBelow st) hN hd

/-- Witness of C3: the sample session on the sample file. -/
theorem C3_ids_positive_unique_witness :
    maxIdOf sampleFile.load + countAdds sampleOps ≤ INT_MAX ∧
    (∀ e ∈ ((ExpenseManager.init sampleFile).run sampleOps).expenses_, 0 < e.id) ∧
    ((sampleFile.load.map Expense.id).Nodup →
      (((ExpenseManager.init sampleFile).run sampleOps).expenses_.map Expense.id).Nodup) :=
  ⟨by decide, C3_ids_positive_unique sampleFile sampleOps (by decide)⟩

/-- C3 fails as stated.  A file in which two lines carry the id 1 is loaded
as two records with the same id; and after loading a record with id
2147483647 the counter wraps, so that the next addExpense stores a record
with id -2147483648. -/
theorem C3_ids_positive_unique_counterexample :
    ((ExpenseManager.init duplicateIdFile).run []).expenses_.map Expense.id = [1, 1] ∧
    ((ExpenseManager.init maxIdFile).run [sampleAdd]).expenses_.map Expense.id =
      [2147483647, -2147483648] := by
  constructor <;> decide

theorem init_nextId (st : Storage) :
    (ExpenseManager.init st).nextId_ = wrapInt (maxIdOf st.load + 1) := rfl

theorem init_expenses (st : Storage) : (ExpenseManager.init st).expenses_ = st.load := rfl

/-- C4 (as amended): after constructing the manager from stored records whose
ids are all below 2147483647, the next-id counter equals one more than the
maximum id among the loaded records, or 1 if none were loaded, and the first
addExpense returns a record with exactly that id.  In particular, initialised
from records with ids {1,3,5} the first addExpense yields id 6, and so does
removeExpense(5) followed by addExpense. -/
theorem C4_initial_counter (st : Storage) (d c : Str) (a : ℚ) (n : Str)
    (hfit : ∀ e ∈ st.load, e.id < INT_MAX) :
    (st.load = [] → (ExpenseManager.init st).nextId_ = 1) ∧
    (∀ x ∈ st.load, (∀ y ∈ st.load, y.id ≤ x.id) →
      (ExpenseManager.init st).nextId_ = x.id + 1) ∧
    ((ExpenseManager.init st).addExpense d c a n).1.id = (ExpenseManager.init st).nextId_ ∧
    ((∀ i, i ∈ st.load.map Expense.id ↔ i = 1 ∨ i = 3 ∨ i = 5) →
      ((ExpenseManager.init st).addExpense d c a n).1.id = 6 ∧
      (((ExpenseManager.init st).removeExpense 5).2.addExpense d c a n).1.id = 6) := by
  have hmaxeq : ∀ x ∈ st.load, (∀ y ∈ st.load, y.id ≤ x.id) →
      (ExpenseManager.init st).nextId_ = x.id + 1 := by
    intro x hx hmax
    rw [init_nextId, maxIdOf_eq st.load x hx (load_id_pos st x hx).1 hmax]
    have h1 := (load_id_pos st x hx).1
    have h2 := hfit x hx
    exact wrapInt_of_int _ (by unfold INT_MIN; omega) (by omega)
  refine ⟨?_, hmaxeq, rfl, ?_⟩
  · intro hnil
    rw [init_nextId, hnil, maxIdOf_nil]
    rfl
  · intro hids
    obtain ⟨x, hx, hx5⟩ := List.mem_map.mp ((hids 5).mpr (Or.inr (Or.inr rfl)))
    have hmax : ∀ y ∈ st.load, y.id ≤ x.id := by
      intro y hy
      rcases (hids y.id).mp (List.mem_map_of_mem _ hy) with h | h | h <;> omega
    have h6 := hmaxeq x hx hmax
    rw [hx5] at h6
    refine ⟨by rw [addExpense_id, h6]; rfl, ?_⟩
    rw [addExpense_id, removeExpense_nextId, h6]
    rfl

/-- Witness of C4: the sample file, whose records have the ids 1, 3 and 5. -/
theorem C4_initial_counter_witness :
    (∀ e ∈ sampleFile.load, e.id < INT_MAX) ∧
    ((ExpenseManager.init sampleFile).addExpense [] [] 0 []).1.id = 6 ∧
    (((ExpenseManager.init sampleFile).removeExpense 5).2.addExpense [] [] 0 []).1.id = 6 :=
  ⟨by decide,
    (C4_initial_counter sampleFile [] [] 0 [] (by decide)).2.2.2 (by
      intro i
      have hl : sampleFile.load.map Expense.id = [1, 3, 5] := by decide
      rw [hl]
      simp)⟩

/-- C4 fails as stated.  From a file whose only record has id 2147483647 the
counter is not 2147483648 but, after wrapping, -2147483648, and the first
addExpense returns that id. -/
theorem C4_initial_counter_counterexample :
    maxIdFile.load.map Expense.id = [2147483647] ∧
    (ExpenseManager.init maxIdFile).nextId_ = -2147483648 ∧
    ((ExpenseManager.init maxIdFile).addExpense [] [] 0 []).1.id = -2147483648 := by
  refine ⟨by decide, by decide, by decide⟩

/-! ## Ids after saving and loading again -/

/-- The id of a record comes back from its line, whatever its other fields. -/
theorem deserialize_serialize_id (e : Expense) (h1 : INT_MIN ≤ e.id) (h2 : e.id ≤ INT_MAX) :
    (Expense.deserialize e.serialize).id = e.id := by
  have hsplit : ∃ rest : Str, splitPipe e.serialize = intText e.id :: splitPipe rest ∧
      3 ≤ rest.count '|' := by
    refine ⟨e.date ++ '|' :: (e.category ++ '|' :: (fixed2 e.amount ++ '|' :: clean e.note)),
      ?_, ?_⟩
    · unfold Expense.serialize
      simp only [List.append_assoc, List.cons_append]
      rw [splitPipe_field _ _ (intText_no_pipe _)]
    · simp only [List.count_append, List.count_cons_self]
      omega
  obtain ⟨rest, hs, hc⟩ := hsplit
  have hlen : 5 ≤ (splitPipe e.serialize).length := by
    rw [hs, List.length_cons, length_splitPipe]
    omega
  unfold Expense.deserialize
  simp only [hlen, if_true]
  rw [hs]
  simp [stoi_intText e.id h1 h2]

theorem loadLoop_saveText_ids (l : List Expense)
    (hpos : ∀ e ∈ l, 0 < e.id ∧ e.id ≤ INT_MAX)
    (hline : ∀ e ∈ l, (∀ ch ∈ e.date, ch ≠ '\n') ∧ (∀ ch ∈ e.category, ch ≠ '\n')) :
    (loadLoop (getlines (saveText l)) []).map Expense.id = l.map Expense.id := by
  rw [getlines_saveText l (fun e he => serialize_no_newline e (hline e he).1 (hline e he).2)]
  induction l with
  | nil => rfl
  | cons e t ih =>
    have he := hpos e (List.mem_cons_self _ _)
    have hid := deserialize_serialize_id e (by unfold INT_MIN; omega) he.2
    rw [List.map_cons, loadLoop_cons_keep _ _ (serialize_ne_nil e) (by rw [hid]; exact he.1),
      List.map_cons, List.map_cons, hid,
      ih (fun x hx => hpos x (List.mem_cons_of_mem _ hx))
        (fun x hx => hline x (List.mem_cons_of_mem _ hx))]

theorem length_removeIf_le (p : Expense → Bool) (l : List Expense) :
    (removeIf p l).length ≤ l.length :=
  (removeIf_sublist p l).length_le

theorem length_removeIf_lt (p : Expense → Bool) (l : List Expense) (x : Expense) (hx : x ∈ l)
    (hp : p x = true) : (removeIf p l).length < l.length := by
  induction l with
  | nil => simp at hx
  | cons y t ih =>
    unfold removeIf
    by_cases hy : p y = true
    · simp only [hy, if_true, List.length_cons]
      have := length_removeIf_le p t
      omega
    · have hy' : p y = false := by simpa using hy
      simp only [hy', Bool.false_eq_true, if_false, List.length_cons]
      rcases List.mem_cons.mp hx with rfl | hx
      · exact absurd hp hy
      · have := ih hx
        omega

theorem removeExpense_found (m : ExpenseManager) (i : Int) (x : Expense) (hx : x ∈ m.expenses_)
    (hi : x.id = i) : (m.removeExpense i).1 = true := by
  have hlt := length_removeIf_lt (fun y => decide (y.id = i)) m.expenses_ x hx (by simp [hi])
  unfold ExpenseManager.removeExpense
  simp only
  rw [if_pos hlt]

theorem removeExpense_content (m : ExpenseManager) (i : Int) (hw : m.storage_.writable = true)
    (h : (m.removeExpense i).1 = true) :
    (m.removeExpense i).2.storage_.content =
      some (saveText (removeIf (fun y => y.id = i) m.expenses_)) := by
  have := step_content m (Op.remove i) hw h
  simp only [ExpenseManager.step] at this
  rw [this, removeExpense_expenses]

/-- C5 (as amended): take a manager with a writable file whose records have
positive `int` ids and dates and categories without newline, and let m be the
maximum id.  Removing the records with id m, re-initialising a manager from
the file that the removal persisted and then calling addExpense gives the new
record the id one more than the largest remaining id, or 1 if no record
remains.  That id is at most m, and it is m (the freed id is reused) exactly
when m = 1 or some record has id m - 1. -/
theorem C5_id_after_reload (m : ExpenseManager) (x : Expense) (d c : Str) (a : ℚ) (n : Str)
    (hw : m.storage_.writable = true) (hx : x ∈ m.expenses_)
    (hmax : ∀ y ∈ m.expenses_, y.id ≤ x.id)
    (hpos : ∀ y ∈ m.expenses_, 0 < y.id ∧ y.id ≤ INT_MAX)
    (hline : ∀ y ∈ m.expenses_, (∀ ch ∈ y.date, ch ≠ '\n') ∧ (∀ ch ∈ y.category, ch ≠ '\n')) :
    (m.removeExpense x.id).1 = true ∧
    ((∀ y ∈ m.expenses_, y.id = x.id) →
      ((ExpenseManager.init (m.removeExpense x.id).2.storage_).addExpense d c a n).1.id = 1) ∧
    (∀ y ∈ m.expenses_, y.id ≠ x.id → (∀ z ∈ m.expenses_, z.id ≠ x.id → z.id ≤ y.id) →
      ((ExpenseManager.init (m.removeExpense x.id).2.storage_).addExpense d c a n).1.id =
        y.id + 1) ∧
    ((ExpenseManager.init (m.removeExpense x.id).2.storage_).addExpense d c a n).1.id ≤ x.id ∧
    (((ExpenseManager.init (m.removeExpense x.id).2.storage_).addExpense d c a n).1.id = x.id ↔
      (x.id = 1 ∨ ∃ y ∈ m.expenses_, y.id = x.id - 1)) := by
  have hrem := removeExpense_found m x.id x hx rfl
  have hmem : ∀ y, y ∈ removeIf (fun y => decide (y.id = x.id)) m.expenses_ ↔
      y ∈ m.expenses_ ∧ y.id ≠ x.id := by
    intro y
    rw [mem_removeIf]
    simp
  have hload : (m.removeExpense x.id).2.storage_.load.map Expense.id =
      (removeIf (fun y => decide (y.id = x.id)) m.expenses_).map Expense.id := by
    unfold Storage.load
    rw [removeExpense_content m x.id hw hrem]
    exact loadLoop_saveText_ids _ (fun e he => hpos e ((hmem e).mp he).1)
      (fun e he => hline e ((hmem e).mp he).1)
  have hxpos := (hpos x hx).1
  have hxmax := (hpos x hx).2
  have hlt : maxIdOf (removeIf (fun y => decide (y.id = x.id)) m.expenses_) < x.id := by
    rcases maxIdOf_attained (removeIf (fun y => decide (y.id = x.id)) m.expenses_) with h | h
    · omega
    · obtain ⟨e, he, h⟩ := h
      have h1 := (hmem e).mp he
      have h2 := hmax e h1.1
      have h3 := h1.2
      omega
  have hnn := maxIdOf_nonneg (removeIf (fun y => decide (y.id = x.id)) m.expenses_)
  have hid : ((ExpenseManager.init (m.removeExpense x.id).2.storage_).addExpense d c a n).1.id =
      maxIdOf (removeIf (fun y => decide (y.id = x.id)) m.expenses_) + 1 := by
    rw [addExpense_id, init_nextId, maxIdOf_congr _ _ hload]
    exact wrapInt_of_int _ (by unfold INT_MIN; omega) (by omega)
  rw [hid]
  refine ⟨hrem, ?_, ?_, by omega, ?_⟩
  · intro hall
    have hnil : removeIf (fun y => decide (y.id = x.id)) m.expenses_ = [] := by
      apply List.eq_nil_iff_forall_not_mem.mpr
      intro y hy
      exact ((hmem y).mp hy).2 (hall y ((hmem y).mp hy).1)
    rw [hnil, maxIdOf_nil]
    rfl
  · intro y hy hyx hymax
    rw [maxIdOf_eq _ y ((hmem y).mpr ⟨hy, hyx⟩) (hpos y hy).1
      (fun z hz => hymax z ((hmem z).mp hz).1 ((hmem z).mp hz).2)]
  · constructor
    · intro h
      rcases maxIdOf_attained (removeIf (fun y => decide (y.id = x.id)) m.expenses_) with h0 | h0
      · left; omega
      · obtain ⟨e, he, h0⟩ := h0
        right
        exact ⟨e, ((hmem e).mp he).1, by omega⟩
    · rintro (h | ⟨y, hy, hyx⟩)
      · omega
      · have := le_maxIdOf _ y ((hmem y).mpr ⟨hy, by omega⟩)
        omega

/-- Witness of C5: the manager loaded from the sample file (ids 1, 3, 5) and
its record with id 5. -/
theorem C5_id_after_reload_witness :
    (ExpenseManager.init sampleFile).storage_.writable = true ∧
    ({ id := 5, date := "2024-02-01".data, category := "food".data, amount := 1,
       note := [] } : Expense) ∈ (ExpenseManager.init sampleFile).expenses_ ∧
    (∀ y ∈ (ExpenseManager.init sampleFile).expenses_, y.id ≤ 5) ∧
    (∀ y ∈ (ExpenseManager.init sampleFile).expenses_, 0 < y.id ∧ y.id ≤ INT_MAX) ∧
    (∀ y ∈ (ExpenseManager.init sampleFile).expenses_,
      (∀ ch ∈ y.date, ch ≠ '\n') ∧ (∀ ch ∈ y.category, ch ≠ '\n')) ∧
    ((ExpenseManager.init
        ((ExpenseManager.init sampleFile).removeExpense 5).2.storage_).addExpense
          [] [] 0 []).1.id ≤ 5 :=
  ⟨rfl, by decide!, by decide, by decide, by decide,
    (C5_id_after_reload (ExpenseManager.init sampleFile)
      { id := 5, date := "2024-02-01".data, category := "food".data, amount := 1, note := [] }
      [] [] 0 [] rfl (by decide!) (by decide) (by decide) (by decide)).2.2.2.1⟩

/-- C5 fails as stated.  With the ids 1, 3 and 5 in memory, removing the
record with the maximum id 5, re-initialising from the persisted file and
adding gives the id 4, not 5.  And when the date of a kept record holds a
newline followed by the text of a record with id 7, the same steps on the ids
1 and 2 give the id 8. -/
theorem C5_id_after_reload_counterexample :
    ((ExpenseManager.init sampleFile).expenses_.map Expense.id = [1, 3, 5] ∧
      ((ExpenseManager.init
          ((ExpenseManager.init sampleFile).removeExpense 5).2.storage_).addExpense
            [] [] 0 []).1.id = 4) ∧
    (newlineDateManager.expenses_.map Expense.id = [1, 2] ∧
      ((ExpenseManager.init (newlineDateManager.removeExpense 2).2.storage_).addExpense
        [] [] 0 []).1.id = 8) := by
  refine ⟨⟨by decide, by decide!⟩, ⟨by decide, by decide!⟩⟩

theorem countAdds_nonneg_cast (ops : List Op) : (0 : Int) ≤ (countAdds ops : Int) :=
  Int.natCast_nonneg _

/-- The id that `addExpense` returns after a session whose ids fit in `int`. -/
theorem addExpense_id_after_run (st : Storage) (ops : List Op) (d c : Str) (a : ℚ) (n : Str)
    (hfit : maxIdOf st.load + countAdds ops + 1 ≤ INT_MAX) :
    (((ExpenseManager.init st).run ops).addExpense d c a n).1.id =
      maxIdOf st.load + 1 + countAdds ops :=
  (addExpense_idsBelow _ _ d c a n
    (run_idsBelow ops _ _ (init_idsBelow st) (by omega)) (by omega)).1

/-- C6: for a manager constructed from any stored records and any finite
sequence of addExpense, removeExpense and editExpense calls followed by an
addExpense, without `int` overflow of the counter: the id this addExpense
returns is strictly greater than the id of every record that was in the
in-memory list at any earlier point of the sequence (records since removed
included) and than every id an earlier addExpense of the sequence returned,
and no removeExpense of the sequence changes the counter. -/
theorem C6_no_reuse_in_session (st : Storage) (ops : List Op) (d c : Str) (a : ℚ) (n : Str)
    (hfit : maxIdOf st.load + countAdds ops + 1 ≤ INT_MAX) :
    (∀ pre post : List Op, ops = pre ++ post →
      ∀ x ∈ ((ExpenseManager.init st).run pre).expenses_,
        x.id < (((ExpenseManager.init st).run ops).addExpense d c a n).1.id) ∧
    (∀ (pre post : List Op) (d1 c1 : Str) (a1 : ℚ) (n1 : Str),
      ops = pre ++ Op.add d1 c1 a1 n1 :: post →
        (((ExpenseManager.init st).run pre).addExpense d1 c1 a1 n1).1.id <
          (((ExpenseManager.init st).run ops).addExpense d c a n).1.id) ∧
    (∀ (pre post : List Op) (i : Int), ops = pre ++ Op.remove i :: post →
      ((ExpenseManager.init st).run (pre ++ [Op.remove i])).nextId_ =
        ((ExpenseManager.init st).run pre).nextId_) := by
  rw [addExpense_id_after_run st ops d c a n hfit]
  refine ⟨?_, ?_, ?_⟩
  · intro pre post hops x hx
    have hc : countAdds ops = countAdds pre + countAdds post := by
      rw [hops, countAdds_append]
    have hpost := countAdds_nonneg_cast post
    have hinv := run_idsBelow pre _ _ (init_idsBelow st) (by rw [hc] at hfit; push_cast at hfit; omega)
    have := (hinv.1 x hx).2
    rw [hc]
    push_cast
    omega
  · intro pre post d1 c1 a1 n1 hops
    have hc : countAdds ops = countAdds pre + (countAdds post + 1) := by
      rw [hops, countAdds_append]
      rfl
    have hpost := countAdds_nonneg_cast post
    rw [addExpense_id_after_run st pre d1 c1 a1 n1 (by rw [hc] at hfit; push_cast at hfit; omega)]
    rw [hc]
    push_cast
    omega
  · intro pre post i _
    rw [run_append, run_cons, run_nil]
    exact removeExpense_nextId _ i

/-- Witness of C6: the sample session on the sample file, followed by an
addExpense. -/
theorem C6_no_reuse_in_session_witness :
    maxIdOf sampleFile.load + countAdds sampleOps + 1 ≤ INT_MAX ∧
    (∀ pre post : List Op, sampleOps = pre ++ post →
      ∀ x ∈ ((ExpenseManager.init sampleFile).run pre).expenses_,
        x.id < (((ExpenseManager.init sampleFile).run sampleOps).addExpense [] [] 0 []).1.id) :=
  ⟨by decide, (C6_no_reuse_in_session sampleFile sampleOps [] [] 0 [] (by decide)).1⟩

/-- C7: editExpense(id, ...) returns false exactly when no record in the
in-memory list has that id, and in that case the in-memory list, the next-id
counter and the backing file are what they were before the call. -/
theorem C7_failed_edit (m : ExpenseManager) (id : Int) (date category : Str) (amount : ℚ)
    (note : Str) :
    ((m.editExpense id date category amount note).1 = false ↔
      ∀ e ∈ m.expenses_, e.id ≠ id) ∧
    ((m.editExpense id date category amount note).1 = false →
      (m.editExpense id date category amount note).2.expenses_ = m.expenses_ ∧
      (m.editExpense id date category amount note).2.nextId_ = m.nextId_ ∧
      (m.editExpense id date category amount note).2.storage_ = m.storage_) := by
  rw [← editLoop_none_iff id date category amount note m.expenses_]
  unfold ExpenseManager.editExpense
  cases h : editLoop id date category amount note m.expenses_ with
  | none => simp
  | some l => simp

/-! ## Month filter -/

theorem foldl_find_acc (ym : Str) (l : List Expense) : ∀ out : List Expense,
    l.foldl
        (fun out e => if 7 ≤ e.date.length ∧ e.date.take 7 = ym then out ++ [e] else out) out =
      out ++ l.filter (fun e => decide (7 ≤ e.date.length ∧ e.date.take 7 = ym)) := by
  induction l with
  | nil => intro out; simp
  | cons x t ih =>
    intro out
    rw [List.foldl_cons, ih]
    by_cases hx : 7 ≤ x.date.length ∧ x.date.take 7 = ym
    · rw [if_pos hx, List.filter_cons_of_pos (by simpa using hx)]
      simp
    · rw [if_neg hx, List.filter_cons_of_neg (by simpa using hx)]

/-- The loop of `findByMonth` keeps, in order, the records that match. -/
theorem findByMonth_eq_filter (m : ExpenseManager) (ym : Str) :
    m.findByMonth ym =
      m.expenses_.filter (fun e => decide (7 ≤ e.date.length ∧ e.date.take 7 = ym)) := by
  unfold ExpenseManager.findByMonth
  rw [foldl_find_acc]
  simp

/-- C8: findByMonth(yearMonth) is exactly the sub-sequence, in original order,
of the records whose date has length at least 7 and whose first 7 characters
equal yearMonth; a record with a shorter date is in no result.  For the dates
2024-01-15, 2024-01-31, 2024-02-01 and 2024, findByMonth("2024-01") returns
exactly the first two in that order. -/
theorem C8_month_filter (m : ExpenseManager) (yearMonth : Str) :
    m.findByMonth yearMonth =
      m.expenses_.filter
        (fun e => decide (7 ≤ e.date.length ∧ e.date.take 7 = yearMonth)) ∧
    (∀ e : Expense, e.date.length < 7 → e ∉ m.findByMonth yearMonth) ∧
    (∀ (e1 e2 e3 e4 : Expense) (k : Int) (st : Storage),
      e1.date = "2024-01-15".data → e2.date = "2024-01-31".data →
      e3.date = "2024-02-01".data → e4.date = "2024".data →
      ExpenseManager.findByMonth { expenses_ := [e1, e2, e3, e4], nextId_ := k, storage_ := st }
        "2024-01".data = [e1, e2]) := by
  refine ⟨findByMonth_eq_filter m yearMonth, ?_, ?_⟩
  · intro e he hmem
    rw [findByMonth_eq_filter, List.mem_filter] at hmem
    have := hmem.2
    simp only [decide_eq_true_eq] at this
    omega
  · intro e1 e2 e3 e4 k st h1 h2 h3 h4
    rw [findByMonth_eq_filter]
    rw [List.filter_cons_of_pos (by rw [h1]; decide),
      List.filter_cons_of_pos (by rw [h2]; decide),
      List.filter_cons_of_neg (by rw [h3]; decide),
      List.filter_cons_of_neg (by rw [h4]; decide), List.filter_nil]

/-! ## Totals -/

theorem find_addTo (s : SumMap) (key : Str) (x : ℚ) (k : Str) :
    (SumMap.addTo s key x).find k =
      if key = k then some ((s.find key).getD 0 + x) else s.find k := by
  induction s with
  | nil =>
    by_cases hk : key = k
    · simp [SumMap.addTo, SumMap.find, hk]
    · simp [SumMap.addTo, SumMap.find, hk]
  | cons kv rest ih =>
    obtain ⟨k0, v0⟩ := kv
    unfold SumMap.addTo
    by_cases h0 : k0 = key
    · subst h0
      by_cases hk : k0 = k
      · simp [SumMap.find, hk]
      · simp [SumMap.find, hk]
    · simp only [h0, if_false]
      by_cases hk : key = k
      · subst hk
        simp only [SumMap.find, h0, if_false, ih, if_true]
      · simp only [hk, if_false] at ih ⊢
        by_cases hk0 : k0 = k
        · simp [SumMap.find, hk0]
        · simp [SumMap.find, hk0, ih]

theorem keys_addTo (s : SumMap) (key : Str) (x : ℚ) :
    (SumMap.addTo s key x).map Prod.fst =
      if key ∈ s.map Prod.fst then s.map Prod.fst else s.map Prod.fst ++ [key] := by
  induction s with
  | nil => simp [SumMap.addTo]
  | cons kv rest ih =>
    obtain ⟨k0, v0⟩ := kv
    unfold SumMap.addTo
    by_cases h0 : k0 = key
    · simp [h0]
    · have h0' : ¬ key = k0 := fun h => h0 h.symm
      simp only [h0, if_false, List.map_cons, ih, List.mem_cons, h0', false_or]
      split <;> simp

theorem nodup_keys_addTo (s : SumMap) (key : Str) (x : ℚ) (h : (s.map Prod.fst).Nodup) :
    ((SumMap.addTo s key x).map Prod.fst).Nodup := by
  rw [keys_addTo]
  split
  · exact h
  · rename_i hk
    exact List.Nodup.append h (List.nodup_singleton _) (by
      intro a ha hb
      rw [List.mem_singleton] at hb
      exact hk (hb ▸ ha))

theorem sum_values_addTo (s : SumMap) (key : Str) (x : ℚ) :
    ((SumMap.addTo s key x).map Prod.snd).sum = (s.map Prod.snd).sum + x := by
  induction s with
  | nil => simp [SumMap.addTo]
  | cons kv rest ih =>
    obtain ⟨k0, v0⟩ := kv
    unfold SumMap.addTo
    by_cases h0 : k0 = key
    · simp [h0]; ring
    · simp only [h0, if_false, List.map_cons, List.sum_cons, ih]; ring

theorem find_of_mem (s : SumMap) (h : (s.map Prod.fst).Nodup) (k : Str) (v : ℚ)
    (hm : (k, v) ∈ s) : s.find k = some v := by
  induction s with
  | nil => simp at hm
  | cons kv rest ih =>
    obtain ⟨k0, v0⟩ := kv
    rw [List.map_cons, List.nodup_cons] at h
    rcases List.mem_cons.mp hm with heq | hm
    · simp only [Prod.mk.injEq] at heq
      simp [SumMap.find, heq.1, heq.2]
    · have hne : k0 ≠ k := by
        rintro rfl
        exact h.1 (List.mem_map.mpr ⟨(k0, v), hm, rfl⟩)
      simp only [SumMap.find, hne, if_false]
      exact ih h.2 hm

theorem mem_of_find (s : SumMap) (k : Str) (v : ℚ) (h : s.find k = some v) : (k, v) ∈ s := by
  induction s with
  | nil => simp [SumMap.find] at h
  | cons kv rest ih =>
    obtain ⟨k0, v0⟩ := kv
    unfold SumMap.find at h
    by_cases h0 : k0 = k
    · simp only [h0, if_true, Option.some.injEq] at h
      simp [h0, h]
    · simp only [h0, if_false] at h
      exact List.mem_cons_of_mem _ (ih h)

theorem foldl_total_acc (ym : Str) (l : List Expense) : ∀ tot : ℚ,
    l.foldl
        (fun tot e => if 7 ≤ e.date.length ∧ e.date.take 7 = ym then tot + e.amount else tot)
        tot =
      tot + ((l.filter (fun e => decide (7 ≤ e.date.length ∧ e.date.take 7 = ym))).map
        Expense.amount).sum := by
  induction l with
  | nil => intro tot; simp
  | cons x t ih =>
    intro tot
    rw [List.foldl_cons, ih]
    by_cases hx : 7 ≤ x.date.length ∧ x.date.take 7 = ym
    · rw [if_pos hx, List.filter_cons_of_pos (by simpa using hx)]
      simp only [List.map_cons, List.sum_cons]
      ring
    · rw [if_neg hx, List.filter_cons_of_neg (by simpa using hx)]

/-- The loop of `totalForMonth` sums the amounts of the records that
`findByMonth` returns. -/
theorem totalForMonth_eq_sum (m : ExpenseManager) (ym : Str) :
    m.totalForMonth ym = ((m.findByMonth ym).map Expense.amount).sum := by
  unfold ExpenseManager.totalForMonth
  rw [foldl_total_acc, findByMonth_eq_filter]
  simp

theorem foldl_perCategory_filter (ym : Str) (l : List Expense) : ∀ sums : SumMap,
    l.foldl
        (fun sums e =>
          if 7 ≤ e.date.length ∧ e.date.take 7 = ym then SumMap.addTo sums e.category e.amount
          else sums) sums =
      (l.filter (fun e => decide (7 ≤ e.date.length ∧ e.date.take 7 = ym))).foldl
        (fun sums e => SumMap.addTo sums e.category e.amount) sums := by
  induction l with
  | nil => intro sums; rfl
  | cons x t ih =>
    intro sums
    rw [List.foldl_cons, ih]
    by_cases hx : 7 ≤ x.date.length ∧ x.date.take 7 = ym
    · rw [if_pos hx, List.filter_cons_of_pos (by simpa using hx), List.foldl_cons]
    · rw [if_neg hx, List.filter_cons_of_neg (by simpa using hx)]

/-- The loop of `totalPerCategory` adds up the records that `findByMonth`
returns. -/
theorem totalPerCategory_eq_foldl (m : ExpenseManager) (ym : Str) :
    m.totalPerCategory ym =
      (m.findByMonth ym).foldl (fun sums e => SumMap.addTo sums e.category e.amount) [] := by
  unfold ExpenseManager.totalPerCategory
  rw [foldl_perCategory_filter, findByMonth_eq_filter]

theorem foldl_addTo_find (l : List Expense) (k : Str) : ∀ sums : SumMap,
    (l.foldl (fun sums e => SumMap.addTo sums e.category e.amount) sums).find k =
      if (∃ e ∈ l, e.category = k) ∨ (sums.find k).isSome then
        some ((sums.find k).getD 0 +
          ((l.filter (fun e => decide (e.category = k))).map Expense.amount).sum)
      else none := by
  induction l with
  | nil =>
    intro sums
    cases h : sums.find k <;> simp [h]
  | cons x t ih =>
    intro sums
    rw [List.foldl_cons, ih, find_addTo]
    by_cases hx : x.category = k
    · subst hx
      rw [List.filter_cons_of_pos (by simp)]
      simp only [if_true, Option.isSome_some, or_true, Option.getD_some, List.mem_cons,
        exists_eq_or_imp, true_or, List.map_cons, List.sum_cons]
      congr 1
      ring
    · simp only [hx, if_false, List.mem_cons, exists_eq_or_imp, false_or]
      rw [List.filter_cons_of_neg (by simpa using hx)]

theorem foldl_addTo_keys_nodup (l : List Expense) : ∀ sums : SumMap,
    (sums.map Prod.fst).Nodup →
    ((l.foldl (fun sums e => SumMap.addTo sums e.category e.amount) sums).map Prod.fst).Nodup := by
  induction l with
  | nil => intro sums h; exact h
  | cons x t ih =>
    intro sums h
    rw [List.foldl_cons]
    exact ih _ (nodup_keys_addTo sums _ _ h)

theorem foldl_addTo_sum (l : List Expense) : ∀ sums : SumMap,
    ((l.foldl (fun sums e => SumMap.addTo sums e.category e.amount) sums).map Prod.snd).sum =
      (sums.map Prod.snd).sum + (l.map Expense.amount).sum := by
  induction l with
  | nil => intro sums; simp
  | cons x t ih =>
    intro sums
    rw [List.foldl_cons, ih, sum_values_addTo]
    simp only [List.map_cons, List.sum_cons]
    ring

/-- What `totalPerCategory` stores under a key. -/
theorem totalPerCategory_find (m : ExpenseManager) (ym : Str) (k : Str) :
    (m.totalPerCategory ym).find k =
      if ∃ e ∈ m.findByMonth ym, e.category = k then
        some (((m.findByMonth ym).filter
          (fun e => decide (e.category = k))).map Expense.amount).sum
      else none := by
  rw [totalPerCategory_eq_foldl, foldl_addTo_find]
  simp [SumMap.find]

/-- C9 (amounts as exact numbers): totalForMonth(yearMonth) is the sum of
amount over findByMonth(yearMonth); the keys of totalPerCategory(yearMonth),
none of which occurs twice, are exactly the category strings occurring in
findByMonth(yearMonth), each mapped to the sum of amount over the matching
records with exactly that category string; and the values of
totalPerCategory(yearMonth) add up to totalForMonth(yearMonth).  For two
records of category `food` with amounts 10.50 and 4.25 in `2024-03`, both
totals are 14.75. -/
theorem C9_aggregation (m : ExpenseManager) (yearMonth : Str) :
    m.totalForMonth yearMonth = ((m.findByMonth yearMonth).map Expense.amount).sum ∧
    ((m.totalPerCategory yearMonth).map Prod.fst).Nodup ∧
    (∀ k : Str, k ∈ (m.totalPerCategory yearMonth).map Prod.fst ↔
      ∃ e ∈ m.findByMonth yearMonth, e.category = k) ∧
    (∀ (k : Str) (v : ℚ), (k, v) ∈ m.totalPerCategory yearMonth →
      v = (((m.findByMonth yearMonth).filter
        (fun e => decide (e.category = k))).map Expense.amount).sum) ∧
    ((m.totalPerCategory yearMonth).map Prod.snd).sum = m.totalForMonth yearMonth ∧
    (∀ (e1 e2 : Expense) (k : Int) (st : Storage),
      e1.category = "food".data → e1.amount = 21 / 2 → e1.date.take 7 = "2024-03".data →
      e2.category = "food".data → e2.amount = 17 / 4 → e2.date.take 7 = "2024-03".data →
      (ExpenseManager.totalPerCategory
        { expenses_ := [e1, e2], nextId_ := k, storage_ := st } "2024-03".data).find
          "food".data = some (59 / 4) ∧
      ExpenseManager.totalForMonth
        { expenses_ := [e1, e2], nextId_ := k, storage_ := st } "2024-03".data = 59 / 4) := by
  have hnodup : ((m.totalPerCategory yearMonth).map Prod.fst).Nodup := by
    rw [totalPerCategory_eq_foldl]
    exact foldl_addTo_keys_nodup _ [] (by simp)
  refine ⟨totalForMonth_eq_sum m yearMonth, hnodup, ?_, ?_, ?_, ?_⟩
  · intro k
    constructor
    · intro hk
      obtain ⟨⟨k', v⟩, hkv, rfl⟩ := List.mem_map.mp hk
      have hf := find_of_mem _ hnodup k' v hkv
      rw [totalPerCategory_find] at hf
      by_contra hne
      rw [if_neg hne] at hf
      exact absurd hf (by simp)
    · intro hk
      have hf := totalPerCategory_find m yearMonth k
      rw [if_pos hk] at hf
      exact List.mem_map_of_mem Prod.fst (mem_of_find _ k _ hf)
  · intro k v hkv
    have hf := find_of_mem _ hnodup k v hkv
    rw [totalPerCategory_find] at hf
    split at hf
    · simp only [Option.some.injEq] at hf
      exact hf.symm
    · exact absurd hf (by simp)
  · rw [totalPerCategory_eq_foldl, foldl_addTo_sum, totalForMonth_eq_sum]
    simp
  · intro e1 e2 k st hc1 ha1 hd1 hc2 ha2 hd2
    have hlen : ∀ e : Expense, e.date.take 7 = "2024-03".data → 7 ≤ e.date.length := by
      intro e he
      have := congrArg List.length he
      rw [List.length_take] at this
      have h7 : ("2024-03".data).length = 7 := rfl
      omega
    have hfind : ExpenseManager.findByMonth
        { expenses_ := [e1, e2], nextId_ := k, storage_ := st } "2024-03".data = [e1, e2] := by
      rw [findByMonth_eq_filter]
      rw [List.filter_cons_of_pos (by simpa using ⟨hlen e1 hd1, hd1⟩),
        List.filter_cons_of_pos (by simpa using ⟨hlen e2 hd2, hd2⟩), List.filter_nil]
    constructor
    · rw [totalPerCategory_find, hfind, if_pos ⟨e1, List.mem_cons_self _ _, hc1⟩]
      rw [List.filter_cons_of_pos (by simpa using hc1),
        List.filter_cons_of_pos (by simpa using hc2), List.filter_nil]
      simp only [List.map_cons, List.map_nil, List.sum_cons, List.sum_nil, ha1, ha2]
      norm_num
    · rw [totalForMonth_eq_sum, hfind]
      simp only [List.map_cons, List.map_nil, List.sum_cons, List.sum_nil, ha1, ha2]
      norm_num

/-- C10 (as amended): for every Expense whose date and category contain no
`|`, including one whose note contains `|`, newline or carriage return, the
line produced by serialize() splits on `|` into exactly 5 fields, the fifth
being the note with each of these three characters replaced by a space. -/
theorem C10_sanitization (e : Expense) (hdate : ∀ c ∈ e.date, c ≠ '|')
    (hcat : ∀ c ∈ e.category, c ≠ '|') :
    (splitPipe e.serialize).length = 5 ∧
    (splitPipe e.serialize).getD 4 [] = clean e.note ∧
    (∀ c ∈ clean e.note, c ≠ '|' ∧ c ≠ '\n' ∧ c ≠ '\r') := by
  rw [splitPipe_serialize e hdate hcat]
  refine ⟨rfl, rfl, ?_⟩
  intro c hc
  refine ⟨clean_no_pipe _ c hc, clean_no_newline _ c hc, ?_⟩
  unfold clean at hc
  obtain ⟨x, -, rfl⟩ := List.mem_map.mp hc
  split
  · decide
  · rename_i h; exact fun hx => h (Or.inr (Or.inr hx))

/-- Witness of C10: a record with the note `a|b\nc\rd`. -/
theorem C10_sanitization_witness :
    (∀ c ∈ delimiterNoteExpense.date, c ≠ '|') ∧
    (∀ c ∈ delimiterNoteExpense.category, c ≠ '|') ∧
    (splitPipe delimiterNoteExpense.serialize).length = 5 :=
  ⟨by decide, by decide, (C10_sanitization delimiterNoteExpense (by decide) (by decide)).1⟩

/-- C10 fails as stated: the line of a record with the date `2024|01` splits
into 6 fields. -/
theorem C10_sanitization_counterexample :
    (splitPipe
      (Expense.serialize
        { id := 1, date := "2024|01".data, category := "food".data, amount := 1,
          note := "x".data })).length = 6 := by
  decide!

/-! ## Removing and editing -/

theorem removeIf_of_none (p : Expense → Bool) (l : List Expense) (h : ∀ e ∈ l, p e = false) :
    removeIf p l = l := by
  induction l with
  | nil => rfl
  | cons x t ih =>
    unfold removeIf
    rw [h x (List.mem_cons_self _ _)]
    simp only [Bool.false_eq_true, if_false]
    rw [ih (fun e he => h e (List.mem_cons_of_mem _ he))]

theorem removeExpense_result_iff (m : ExpenseManager) (i : Int) :
    (m.removeExpense i).1 = true ↔ ∃ e ∈ m.expenses_, e.id = i := by
  constructor
  · intro h
    by_contra hne
    have hnone : ∀ e ∈ m.expenses_, (fun x : Expense => decide (x.id = i)) e = false := by
      intro e he
      simp only [decide_eq_false_iff_not]
      exact fun hei => hne ⟨e, he, hei⟩
    unfold ExpenseManager.removeExpense at h
    simp only [removeIf_of_none _ _ hnone, lt_self_iff_false, if_false] at h
    exact absurd h (by simp)
  · rintro ⟨e, he, hei⟩
    exact removeExpense_found m i e he hei

theorem removeExpense_false_storage (m : ExpenseManager) (i : Int)
    (h : (m.removeExpense i).1 = false) : (m.removeExpense i).2.storage_ = m.storage_ := by
  unfold ExpenseManager.removeExpense at h ⊢
  simp only at h ⊢
  split
  · rename_i hlt
    rw [if_pos hlt] at h
    exact absurd h (by simp)
  · rfl

/-- C11: removeExpense(id) leaves the in-memory list equal to the original
list with every record whose id equals the argument deleted and all other
records kept unchanged in their original relative order; it returns true
exactly when at least one record had that id; the next-id counter is
unchanged; and when it returns false the list and the backing file are
unchanged. -/
theorem C11_remove (m : ExpenseManager) (id : Int) :
    (m.removeExpense id).2.expenses_ = m.expenses_.filter (fun x => decide (x.id ≠ id)) ∧
    ((m.removeExpense id).1 = true ↔ ∃ e ∈ m.expenses_, e.id = id) ∧
    (m.removeExpense id).2.nextId_ = m.nextId_ ∧
    ((m.removeExpense id).1 = false →
      (m.removeExpense id).2.expenses_ = m.expenses_ ∧
      (m.removeExpense id).2.storage_ = m.storage_) := by
  refine ⟨?_, removeExpense_result_iff m id, removeExpense_nextId m id, ?_⟩
  · rw [removeExpense_expenses, removeIf_eq_filter]
    congr 1
    funext x
    simp
  · intro h
    refine ⟨?_, removeExpense_false_storage m id h⟩
    rw [removeExpense_expenses]
    apply removeIf_of_none
    intro e he
    simp only [decide_eq_false_iff_not]
    intro hei
    have := (removeExpense_result_iff m id).mpr ⟨e, he, hei⟩
    rw [h] at this
    exact absurd this (by simp)

theorem editLoop_found (i : Int) (d c : Str) (a : ℚ) (n : Str) (l : List Expense)
    (h : ∃ e ∈ l, e.id = i) :
    ∃ (pre : List Expense) (x : Expense) (post : List Expense),
      l = pre ++ x :: post ∧ (∀ y ∈ pre, y.id ≠ i) ∧ x.id = i ∧
      editLoop i d c a n l =
        some (pre ++ { id := x.id, date := d, category := c, amount := a, note := n } :: post) := by
  induction l with
  | nil => obtain ⟨e, he, -⟩ := h; simp at he
  | cons y t ih =>
    by_cases hy : y.id = i
    · refine ⟨[], y, t, rfl, by simp, hy, ?_⟩
      unfold editLoop
      simp [hy]
    · have ht : ∃ e ∈ t, e.id = i := by
        obtain ⟨e, he, hei⟩ := h
        rcases List.mem_cons.mp he with rfl | he
        · exact absurd hei hy
        · exact ⟨e, he, hei⟩
      obtain ⟨pre, x, post, hl, hpre, hx, hedit⟩ := ih ht
      refine ⟨y :: pre, x, post, by rw [hl]; rfl, ?_, hx, ?_⟩
      · intro z hz
        rcases List.mem_cons.mp hz with rfl | hz
        · exact hy
        · exact hpre z hz
      · unfold editLoop
        simp only [hy, if_false, hedit]
        rfl

/-- C12: when some record has the given id, editExpense returns true; the
list splits as `pre`, the first record `x` with that id, and `post`, and the
resulting list is `pre`, then `x` with its date, category, amount and note
replaced by the arguments and its id unchanged, then `post`: same length,
every other record (a later one with the same id included) unchanged and at
the same position; and the next-id counter is unchanged. -/
theorem C12_edit_local (m : ExpenseManager) (id : Int) (date category : Str) (amount : ℚ)
    (note : Str) (h : ∃ e ∈ m.expenses_, e.id = id) :
    (m.editExpense id date category amount note).1 = true ∧
    (∃ (pre : List Expense) (x : Expense) (post : List Expense),
      m.expenses_ = pre ++ x :: post ∧ (∀ y ∈ pre, y.id ≠ id) ∧ x.id = id ∧
      (m.editExpense id date category amount note).2.expenses_ =
        pre ++ { id := x.id, date := date, category := category, amount := amount,
                 note := note } :: post) ∧
    (m.editExpense id date category amount note).2.expenses_.length = m.expenses_.length ∧
    (m.editExpense id date category amount note).2.nextId_ = m.nextId_ := by
  obtain ⟨pre, x, post, hl, hpre, hx, hedit⟩ :=
    editLoop_found id date category amount note m.expenses_ h
  have hres : (m.editExpense id date category amount note).1 = true ∧
      (m.editExpense id date category amount note).2.expenses_ =
        pre ++ { id := x.id, date := date, category := category, amount := amount,
                 note := note } :: post := by
    unfold ExpenseManager.editExpense
    rw [hedit]
    exact ⟨rfl, rfl⟩
  refine ⟨hres.1, ⟨pre, x, post, hl, hpre, hx, hres.2⟩, ?_, editExpense_nextId _ _ _ _ _ _⟩
  rw [hres.2, hl]
  simp

/-- Witness of C12: editing the record with id 3 of the sample file. -/
theorem C12_edit_local_witness :
    (∃ e ∈ (ExpenseManager.init sampleFile).expenses_, e.id = 3) ∧
    ((ExpenseManager.init sampleFile).editExpense 3 "2024-02-02".data "fun".data 5
      "b2".data).1 = true :=
  ⟨⟨{ id := 3, date := "2024-01-31".data, category := "fun".data, amount := 17 / 4,
      note := "b".data }, by decide!, rfl⟩,
    (C12_edit_local (ExpenseManager.init sampleFile) 3 "2024-02-02".data "fun".data 5 "b2".data
      ⟨{ id := 3, date := "2024-01-31".data, category := "fun".data, amount := 17 / 4,
         note := "b".data }, by decide!, rfl⟩).1⟩

/-- C13 (as amended): for every manager state with list L and counter n and
every (date, category, amount, note), with no validation and no failure case,
addExpense returns the record e = (id n, date, category, amount, note) with
the fields exactly as given, and the new in-memory list is L followed by e;
the counter becomes n + 1 when n is an `int` below 2147483647. -/
theorem C13_add (m : ExpenseManager) (date category : Str) (amount : ℚ) (note : Str) :
    (m.addExpense date category amount note).1 =
      { id := m.nextId_, date := date, category := category, amount := amount, note := note } ∧
    (m.addExpense date category amount note).2.expenses_ =
      m.expenses_ ++ [(m.addExpense date category amount note).1] ∧
    (INT_MIN ≤ m.nextId_ ∧ m.nextId_ < INT_MAX →
      (m.addExpense date category amount note).2.nextId_ = m.nextId_ + 1) := by
  refine ⟨rfl, rfl, ?_⟩
  intro h
  rw [addExpense_nextId]
  exact wrapInt_of_int _ (by omega) (by omega)

/-- Witness of C13: adding to the manager loaded from the sample file, whose
counter is 6. -/
theorem C13_add_witness :
    (INT_MIN ≤ (ExpenseManager.init sampleFile).nextId_ ∧
      (ExpenseManager.init sampleFile).nextId_ < INT_MAX) ∧
    ((ExpenseManager.init sampleFile).addExpense "2024-03-10".data "fun".data 5
      "cinema".data).2.nextId_ = (ExpenseManager.init sampleFile).nextId_ + 1 :=
  ⟨by decide,
    (C13_add (ExpenseManager.init sampleFile) "2024-03-10".data "fun".data 5
      "cinema".data).2.2 (by decide)⟩

/-- C13 fails as stated.  The manager loaded from a file whose record has id
2147483646 has the counter 2147483647; addExpense returns that id, and the
counter afterwards is not 2147483648 but, after wrapping, -2147483648. -/
theorem C13_add_counterexample :
    (ExpenseManager.init nearMaxIdFile).nextId_ = 2147483647 ∧
    ((ExpenseManager.init nearMaxIdFile).addExpense [] [] 0 []).1.id = 2147483647 ∧
    ((ExpenseManager.init nearMaxIdFile).addExpense [] [] 0 []).2.nextId_ = -2147483648 := by
  refine ⟨by decide, by decide, by decide⟩

/-! ## The lines of a file and what `load` makes of them -/

theorem loadLoop_eq_filter (lines : List Str) :
    loadLoop lines [] =
      (((lines.filter (fun l => decide (l ≠ []))).map Expense.deserialize).filter
        (fun e => decide (0 < e.id))) := by
  induction lines with
  | nil => rfl
  | cons line rest ih =>
    by_cases h1 : line = []
    · rw [loadLoop_cons_drop line rest (Or.inl h1), ih,
        List.filter_cons_of_neg (by simpa using h1)]
    · rw [List.filter_cons_of_pos (by simpa using h1), List.map_cons]
      by_cases h2 : (Expense.deserialize line).id > 0
      · rw [loadLoop_cons_keep line rest h1 h2, ih, List.filter_cons_of_pos (by simpa using h2)]
      · rw [loadLoop_cons_drop line rest (Or.inr h2), ih,
          List.filter_cons_of_neg (by simpa using h2)]

theorem loadLoop_append (l1 l2 : List Str) :
    loadLoop (l1 ++ l2) [] = loadLoop l1 [] ++ loadLoop l2 [] := by
  simp only [loadLoop_eq_filter, List.filter_append, List.map_append]

theorem getlinesAux_last (a : Str) (h : ∀ c ∈ a, c ≠ '\n') : ∀ cur : Str,
    getlinesAux a cur = if cur ++ a = [] then [] else [cur ++ a] := by
  induction a with
  | nil => intro cur; simp [getlinesAux]
  | cons x t ih =>
    intro cur
    have hx : x ≠ '\n' := h x (List.mem_cons_self _ _)
    rw [getlinesAux]
    simp only [hx, if_false]
    rw [ih (fun c hc => h c (List.mem_cons_of_mem _ hc))]
    simp

/-- The lines that `getline` delivers from a text made of newline-terminated
lines and a last line without newline. -/
theorem getlines_of_lines (ls : List Str) (last : Str)
    (hls : ∀ l ∈ ls, ∀ c ∈ l, c ≠ '\n') (hlast : ∀ c ∈ last, c ≠ '\n') :
    getlines ((ls.map (fun l => l ++ ['\n'])).flatten ++ last) =
      ls ++ (if last = [] then [] else [last]) := by
  induction ls with
  | nil =>
    unfold getlines
    rw [List.map_nil, List.flatten_nil, List.nil_append, getlinesAux_last last hlast]
    simp
  | cons l t ih =>
    have := ih (fun x hx => hls x (List.mem_cons_of_mem _ hx))
    unfold getlines at this ⊢
    rw [List.map_cons, List.flatten_cons, List.append_assoc, List.append_assoc,
      List.singleton_append, getlinesAux_line l (hls l (List.mem_cons_self _ _)), this]
    simp

/-- C14: for every file content, load() returns, in file order, exactly the
records Expense::deserialize(l) for the non-empty lines l of the file whose
deserialized id is greater than 0; empty lines and records with id <= 0
contribute nothing, and a missing or unopenable file yields the empty list.
The lines of a file are its newline-terminated pieces and, when it is not
empty, the piece after the last newline. -/
theorem C14_load (text : Str) (w : Bool) :
    Storage.load { content := some text, writable := w } =
      (((getlines text).filter (fun l => decide (l ≠ []))).map Expense.deserialize).filter
        (fun e => decide (0 < e.id)) ∧
    Storage.load { content := none, writable := w } = [] ∧
    (∀ (ls : List Str) (last : Str), (∀ l ∈ ls, ∀ c ∈ l, c ≠ '\n') → (∀ c ∈ last, c ≠ '\n') →
      getlines ((ls.map (fun l => l ++ ['\n'])).flatten ++ last) =
        ls ++ (if last = [] then [] else [last])) :=
  ⟨loadLoop_eq_filter (getlines text), rfl, getlines_of_lines⟩

/-- A line that `load` drops leaves the result as if it were not there. -/
theorem loadLoop_drop_line (line : Str) (h : line = [] ∨ ¬ (Expense.deserialize line).id > 0)
    (pre post : List Str) :
    loadLoop (pre ++ line :: post) [] = loadLoop (pre ++ post) [] := by
  rw [loadLoop_append, loadLoop_append, loadLoop_cons_drop line post h]

/-- C15: for every line that splits on `|` into fewer than 5 fields,
Expense::deserialize returns the zero-value record (id 0, empty date,
category and note, amount 0), and such a line contributes nothing to the
result of load(), whatever the lines before and after it are. -/
theorem C15_short_line (line : Str) (h : (splitPipe line).length < 5) :
    Expense.deserialize line =
      { id := 0, date := [], category := [], amount := 0, note := [] } ∧
    (∀ pre post : List Str, loadLoop (pre ++ line :: post) [] = loadLoop (pre ++ post) []) ∧
    (∀ (text : Str) (w : Bool) (pre post : List Str), getlines text = pre ++ line :: post →
      Storage.load { content := some text, writable := w } = loadLoop (pre ++ post) []) := by
  have hz : Expense.deserialize line =
      { id := 0, date := [], category := [], amount := 0, note := [] } := by
    unfold Expense.deserialize
    simp only
    rw [if_neg (by omega)]
  have hdrop : line = [] ∨ ¬ (Expense.deserialize line).id > 0 := by
    right
    rw [hz]
    decide
  refine ⟨hz, loadLoop_drop_line line hdrop, ?_⟩
  intro text w pre post hlines
  unfold Storage.load
  simp only
  rw [hlines]
  exact loadLoop_drop_line line hdrop pre post

/-- Witness of C15: the line `bad` of the sample file. -/
theorem C15_short_line_witness :
    (splitPipe "bad".data).length < 5 ∧
    Expense.deserialize "bad".data =
      { id := 0, date := [], category := [], amount := 0, note := [] } :=
  ⟨by decide, (C15_short_line "bad".data (by decide)).1⟩

/-- The text that `save` writes is the records' lines, each with its newline. -/
theorem saveText_eq_flatten (l : List Expense) :
    saveText l = (l.map (fun e => e.serialize ++ ['\n'])).flatten := by
  induction l with
  | nil => rfl
  | cons e t ih =>
    rw [saveText_cons, List.map_cons, List.flatten_cons, ih]
    simp

/-- C16: after addExpense, after a removeExpense that returns true and after
an editExpense that returns true, with the file openable for writing, the
backing file content is exactly the concatenation, in in-memory list order,
of serialize(e) followed by a newline for each record e of the in-memory list
after the operation; save of the empty list yields an empty file. -/
theorem C16_file_mirrors_memory (m : ExpenseManager) (op : Op)
    (hw : m.storage_.writable = true) (hs : m.succeeds op = true) :
    (m.step op).storage_.content =
      some (((m.step op).expenses_.map (fun e => e.serialize ++ ['\n'])).flatten) ∧
    (∀ old : Option Str,
      ((Storage.save { content := old, writable := true } []).1 = true ∧
        (Storage.save { content := old, writable := true } []).2.content = some [])) := by
  refine ⟨?_, fun old => ⟨rfl, rfl⟩⟩
  rw [step_content m op hw hs, saveText_eq_flatten]

/-- Witness of C16: the sample add on the manager that holds the sample
record, whose file did not exist before. -/
theorem C16_file_mirrors_memory_witness :
    sampleManager.storage_.writable = true ∧ sampleManager.succeeds sampleAdd = true ∧
    (sampleManager.step sampleAdd).storage_.content =
      some (((sampleManager.step sampleAdd).expenses_.map
        (fun e => e.serialize ++ ['\n'])).flatten) :=
  ⟨rfl, rfl, (C16_file_mirrors_memory sampleManager sampleAdd rfl rfl).1⟩

/-! ## When the library throws -/

/-- With the model of the library for its parameters, `deserializeWith` is
`deserialize`. -/
theorem deserialize_eq_deserializeWith (line : Str) :
    Expense.deserialize line = Expense.deserializeWith stoi stod line := rfl

/-- With the model of the library for its parameters, `loadLoopWith` is
`loadLoop`, and so `Storage.loadWith` is `Storage.load`. -/
theorem loadLoop_eq_loadLoopWith (lines : List Str) : ∀ out : List Expense,
    loadLoop lines out = loadLoopWith stoi stod lines out := by
  induction lines with
  | nil => intro out; rfl
  | cons line rest ih =>
    intro out
    unfold loadLoop loadLoopWith
    rw [← deserialize_eq_deserializeWith]
    simp only [ih]

theorem load_eq_loadWith (s : Storage) : s.load = Storage.loadWith stoi stod s := by
  unfold Storage.load Storage.loadWith
  cases s.content with
  | none => rfl
  | some text => exact loadLoop_eq_loadLoopWith _ _

theorem loadLoopWith_acc (stoiLib : Str → Option Int) (stodLib : Str → Option ℚ)
    (lines : List Str) : ∀ out : List Expense,
    loadLoopWith stoiLib stodLib lines out = out ++ loadLoopWith stoiLib stodLib lines [] := by
  induction lines with
  | nil => intro out; simp [loadLoopWith]
  | cons line rest ih =>
    intro out
    unfold loadLoopWith
    by_cases h : line = []
    · simp only [h, if_true]; exact ih out
    · simp only [h, if_false]
      by_cases h2 : (Expense.deserializeWith stoiLib stodLib line).id > 0
      · simp only [h2, if_true]
        rw [ih (out ++ [Expense.deserializeWith stoiLib stodLib line]),
          ih ([] ++ [Expense.deserializeWith stoiLib stodLib line])]
        simp
      · simp only [h2, if_false]; exact ih out

/-- A line whose record fails the test `e.id > 0` leaves the result of the
loop as if it were not there. -/
theorem loadLoopWith_drop_line (stoiLib : Str → Option Int) (stodLib : Str → Option ℚ)
    (line : Str) (h : ¬ (Expense.deserializeWith stoiLib stodLib line).id > 0)
    (pre post : List Str) :
    loadLoopWith stoiLib stodLib (pre ++ line :: post) [] =
      loadLoopWith stoiLib stodLib (pre ++ post) [] := by
  induction pre with
  | nil =>
    simp only [List.nil_append]
    rw [loadLoopWith]
    by_cases h1 : line = []
    · simp [h1]
    · simp [h1, h]
  | cons l t ih =>
    simp only [List.cons_append]
    rw [loadLoopWith, loadLoopWith]
    by_cases h1 : l = []
    · simp only [h1, if_true]; exact ih
    · simp only [h1, if_false]
      by_cases h2 : (Expense.deserializeWith stoiLib stodLib l).id > 0
      · simp only [h2, if_true]
        rw [loadLoopWith_acc stoiLib stodLib (t ++ line :: post),
          loadLoopWith_acc stoiLib stodLib (t ++ post), ih]
      · simp only [h2, if_false]; exact ih

/-- C17: let `std::stoi` and `std::stod` be any library functions, `none`
standing for a thrown exception of whatever kind.  For every line with at
least 5 `|`-separated fields, if `stoi` throws on the first field then
deserialize yields id 0 and load returns what it returns without the line,
whatever the amount field and the other lines of the file are; and if `stoi` returns an id for the
first field but `stod` throws on the fourth, deserialize yields a record with
that id, amount 0, and date, category and note equal to the 2nd, 3rd and 5th
fields of the line. -/
theorem C17_parse_failures (stoiLib : Str → Option Int) (stodLib : Str → Option ℚ)
    (line : Str) (h : 5 ≤ (splitPipe line).length) :
    (stoiLib ((splitPipe line).getD 0 []) = none →
      (Expense.deserializeWith stoiLib stodLib line).id = 0 ∧
      ∀ (text : Str) (w : Bool) (pre post : List Str), getlines text = pre ++ line :: post →
        Storage.loadWith stoiLib stodLib { content := some text, writable := w } =
          loadLoopWith stoiLib stodLib (pre ++ post) []) ∧
    (∀ i : Int, stoiLib ((splitPipe line).getD 0 []) = some i →
      stodLib ((splitPipe line).getD 3 []) = none →
      Expense.deserializeWith stoiLib stodLib line =
        { id := i, date := (splitPipe line).getD 1 [], category := (splitPipe line).getD 2 [],
          amount := 0, note := (splitPipe line).getD 4 [] }) := by
  constructor
  · intro hnone
    have hid : (Expense.deserializeWith stoiLib stodLib line).id = 0 := by
      unfold Expense.deserializeWith
      simp only [h, if_true, hnone]
      rfl
    refine ⟨hid, ?_⟩
    intro text w pre post hlines
    unfold Storage.loadWith
    simp only
    rw [hlines]
    apply loadLoopWith_drop_line
    rw [hid]
    decide
  · intro i hi hd
    unfold Expense.deserializeWith
    simp only [h, if_true, hi, hd]
    rfl

/-- Witness of C17: a line whose amount field is `1e999`, read with a library
whose `stod` throws on that field (it is out of the range of `double`) and is
the model elsewhere. -/
theorem C17_parse_failures_witness :
    5 ≤ (splitPipe "4|2024-01-15|food|1e999|n".data).length ∧
    Expense.deserializeWith stoi stodRangeChecked "4|2024-01-15|food|1e999|n".data =
      { id := 4, date := "2024-01-15".data, category := "food".data, amount := 0,
        note := "n".data } :=
  ⟨by decide,
    (C17_parse_failures stoi stodRangeChecked "4|2024-01-15|food|1e999|n".data (by decide)).2 4
      (by decide) (by decide)⟩

/-! ## Serializing twice -/

/-- The number that `stod` reads from the two-decimal text of an amount. -/
theorem stod_fixed2_value (q : ℚ) :
    stod (fixed2 q) =
      some (if q < 0 then -((roundCents q : ℚ) / 100) else (roundCents q : ℚ) / 100) := by
  have hval : ((((parseDigits (natText (roundCents q / 100)) * 10 + roundCents q % 100 / 10) * 10 +
      roundCents q % 10 : Nat) : ℚ)) = (roundCents q : ℚ) := by
    rw [parseDigits_natText]
    congr 1
    omega
  have ha : roundCents q % 100 / 10 < 10 := by omega
  have hb : roundCents q % 10 < 10 := by omega
  unfold fixed2
  simp only
  by_cases hneg : q < 0
  · rw [if_pos hneg, if_pos hneg, List.append_assoc, List.singleton_append,
      stod_neg_two_decimals _ _ _ (natText_ne_nil _) (isDigit_natText _) ha hb, hval]
  · rw [if_neg hneg, if_neg hneg, List.nil_append,
      stod_two_decimals _ _ _ (natText_ne_nil _) (isDigit_natText _) ha hb, hval]

theorem fixed2_congr (q r : ℚ) (hs : q < 0 ↔ r < 0) (hc : roundCents q = roundCents r) :
    fixed2 q = fixed2 r := by
  unfold fixed2
  simp only [hc]
  by_cases h : q < 0
  · rw [if_pos h, if_pos (hs.mp h)]
  · rw [if_neg h, if_neg (fun hr => h (hs.mpr hr))]

/-- The two-decimal text of the value of a two-decimal text is that text,
unless the text is a negative zero. -/
theorem fixed2_value (q : ℚ) (hz : q < 0 → roundCents q ≠ 0) :
    fixed2 (if q < 0 then -((roundCents q : ℚ) / 100) else (roundCents q : ℚ) / 100) =
      fixed2 q := by
  by_cases hneg : q < 0
  · rw [if_pos hneg]
    have hpos : 0 < roundCents q := Nat.pos_of_ne_zero (hz hneg)
    have hcast : -((roundCents q : ℚ) / 100) = ((-(roundCents q : Int) : Int) : ℚ) / 100 := by
      push_cast
      ring
    apply fixed2_congr
    · constructor
      · intro _; exact hneg
      · intro _
        have : (0 : ℚ) < (roundCents q : ℚ) := by exact_mod_cast hpos
        linarith
    · rw [hcast, roundCents_hundredths]
      simp
  · rw [if_neg hneg]
    have hcast : (roundCents q : ℚ) / 100 = (((roundCents q : Int) : Int) : ℚ) / 100 := by
      push_cast
      rfl
    apply fixed2_congr
    · constructor
      · intro h
        have : (0 : ℚ) ≤ (roundCents q : ℚ) := Nat.cast_nonneg _
        linarith
      · intro h; exact absurd h hneg
    · rw [hcast, roundCents_hundredths]
      simp

/-- Where the exact amounts of this model end: an amount between -0.005 and 0
is written as `-0.00`; the program reads that text as the double -0.0 and
writes it as `-0.00` again, whereas the only zero of the rationals is written
as `0.00`. -/
theorem fixed2_negative_zero :
    fixed2 (-1 / 1000) = "-0.00".data ∧ stod "-0.00".data = some 0 ∧
    fixed2 0 = "0.00".data := by
  refine ⟨by decide!, by decide!, by decide!⟩

theorem clean_clean (s : Str) : clean (clean s) = clean s :=
  clean_id (clean s) (fun c hc => by
    refine ⟨clean_no_pipe s c hc, clean_no_newline s c hc, ?_⟩
    unfold clean at hc
    obtain ⟨x, -, rfl⟩ := List.mem_map.mp hc
    split
    · decide
    · rename_i h; exact fun hx => h (Or.inr (Or.inr hx)))

/-- What comes back from the line of a record with an `int` id and no `|`
in date and category: the record with the note cleaned and the amount
replaced by the value of its two-decimal text. -/
theorem deserialize_serialize_normal_form (e : Expense)
    (hid : INT_MIN ≤ e.id ∧ e.id ≤ INT_MAX)
    (hdate : ∀ c ∈ e.date, c ≠ '|') (hcat : ∀ c ∈ e.category, c ≠ '|') :
    Expense.deserialize e.serialize =
      { id := e.id, date := e.date, category := e.category,
        amount := if e.amount < 0 then -((roundCents e.amount : ℚ) / 100)
                  else (roundCents e.amount : ℚ) / 100,
        note := clean e.note } := by
  have hgen := deserialize_serialize_gen e hid.1 hid.2 hdate hcat
  rw [stod_fixed2_value] at hgen
  exact hgen

/-- Serializing what came back from a line gives the line again, for every
amount whose text is not a negative zero.  For the text `-0.00` the statement
needs the negative zero of `double`, see `fixed2_negative_zero`. -/
theorem serialize_deserialize_serialize (e : Expense)
    (hid : INT_MIN ≤ e.id ∧ e.id ≤ INT_MAX)
    (hdate : ∀ c ∈ e.date, c ≠ '|') (hcat : ∀ c ∈ e.category, c ≠ '|')
    (hz : e.amount < 0 → roundCents e.amount ≠ 0) :
    (Expense.deserialize e.serialize).serialize = e.serialize := by
  rw [deserialize_serialize_normal_form e hid hdate hcat]
  unfold Expense.serialize
  simp only
  rw [fixed2_value e.amount hz, clean_clean]

/-! ## Queries for a month that is not seven characters long -/

theorem no_match_of_length (yearMonth : Str) (h : yearMonth.length ≠ 7) (e : Expense) :
    ¬ (7 ≤ e.date.length ∧ e.date.take 7 = yearMonth) := by
  rintro ⟨h1, h2⟩
  have := congrArg List.length h2
  rw [List.length_take] at this
  omega

theorem findByMonth_of_length (m : ExpenseManager) (yearMonth : Str)
    (h : yearMonth.length ≠ 7) : m.findByMonth yearMonth = [] := by
  rw [findByMonth_eq_filter]
  apply List.filter_eq_nil_iff.mpr
  intro e _
  simpa using no_match_of_length yearMonth h e

/-- C19: for every in-memory list and every query string yearMonth whose
length is not exactly 7, findByMonth(yearMonth) is empty,
totalPerCategory(yearMonth) is the empty map and totalForMonth(yearMonth) is
0.  For every query string the three operations apply the same match
predicate: the totals are those of the records in findByMonth's result, added
in list order. -/
theorem C19_malformed_month (m : ExpenseManager) (yearMonth : Str) :
    (yearMonth.length ≠ 7 →
      m.findByMonth yearMonth = [] ∧ m.totalPerCategory yearMonth = [] ∧
      m.totalForMonth yearMonth = 0) ∧
    m.totalPerCategory yearMonth =
      (m.findByMonth yearMonth).foldl (fun sums e => SumMap.addTo sums e.category e.amount) [] ∧
    m.totalForMonth yearMonth =
      (m.findByMonth yearMonth).foldl (fun tot e => tot + e.amount) 0 := by
  have htot : m.totalForMonth yearMonth =
      (m.findByMonth yearMonth).foldl (fun tot e => tot + e.amount) 0 := by
    rw [totalForMonth_eq_sum]
    generalize m.findByMonth yearMonth = l
    have key : ∀ (l : List Expense) (a : ℚ),
        l.foldl (fun tot e => tot + e.amount) a = a + (l.map Expense.amount).sum := by
      intro l
      induction l with
      | nil => intro a; simp
      | cons x t ih =>
        intro a
        rw [List.foldl_cons, ih]
        simp only [List.map_cons, List.sum_cons]
        ring
    rw [key]
    simp
  refine ⟨?_, totalPerCategory_eq_foldl m yearMonth, htot⟩
  intro h
  have hf := findByMonth_of_length m yearMonth h
  refine ⟨hf, ?_, ?_⟩
  · rw [totalPerCategory_eq_foldl, hf]
    rfl
  · rw [htot, hf]
    rfl

/-- Witness of C19: the query `2024-1` on the manager loaded from the sample
file. -/
theorem C19_malformed_month_witness :
    ("2024-1".data).length ≠ 7 ∧
    (ExpenseManager.init sampleFile).findByMonth "2024-1".data = [] ∧
    (ExpenseManager.init sampleFile).totalPerCategory "2024-1".data = [] ∧
    (ExpenseManager.init sampleFile).totalForMonth "2024-1".data = 0 :=
  ⟨by decide, (C19_malformed_month (ExpenseManager.init sampleFile) "2024-1".data).1 (by decide)⟩

end ExpenseTracker
